import Mathlib

/-!
Verification of the UE_Renom rename planner.

This file shallowly embeds the change-plan generators of the repository:

* `src/src/workflows/rename_module/changeset.rs` (module rename),
* `src/src/workflows/rename_project/changesets/code.rs` (project rename),
* `src/src/changes/append_ini_entry.rs` (part of the change IR),

and proves/refutes the frozen specification claims about them.

Filesystem paths are modelled as lists of components (`FsPath`); the
filesystem itself as a finite list of files, each with a path and an
optional content (`none` models an unreadable file, matching the
`Err(_)` branches of `fs::read_to_string` in the source).  Rust panics
(`unwrap`/`expect`) during generation are modelled by returning `none`
from the generator.
-/

/-- File paths are modelled as lists of path components. -/
abbrev FsPath := List String

/-- Boolean path-ancestry test: `pathLe a b` holds when `a` equals `b` or is
an ancestor directory of `b` (component-wise list prefix). -/
def pathLe (a b : FsPath) : Bool := List.isPrefixOf a b

/-- Strip a literal sequence from the front of a character list, returning
the remainder on success (shared matching primitive). -/
def stripPre : List Char → List Char → Option (List Char)
  | [], s => some s
  | _ :: _, [] => none
  | p :: ps, c :: cs => if p = c then stripPre ps cs else none

/-- Uppercase a string character-wise: models Rust `str::to_uppercase` for
the ASCII identifiers the tool manipulates. -/
def strUpper (s : String) : String := String.mk (s.data.map Char.toUpper)

/-- Extension of a file name, after the last dot of the final component;
`none` when there is no dot or the name is dot-initial, following Rust
`Path::extension`. -/
def extSplit (cs : List Char) : Option (List Char) :=
  match (cs.reverse).dropWhile (fun c => c ≠ '.') with
  | [] => none
  | _ :: stemRev =>
    if stemRev = [] then none
    else some (((cs.reverse).takeWhile (fun c => c ≠ '.')).reverse)

/-- String-level wrapper of `extSplit`. -/
def extensionOf (s : String) : Option String := (extSplit s.data).map String.mk

/-- Rust `Path::with_extension` on a single file name: replace the current
extension (if any) by `ext`. -/
def withExt (nm ext : String) : String :=
  match extSplit nm.data with
  | none => String.mk (nm.data ++ ('.' :: ext.data))
  | some e => String.mk (nm.data.take (nm.data.length - e.length - 1) ++ ('.' :: ext.data))

/-- Rust `Path::with_file_name`: drop the last component, push `nm`. -/
def withFileName (p : FsPath) (nm : String) : FsPath := p.dropLast ++ [nm]

/-- Does the character list `tok` occur contiguously inside the list? Models
Rust `str::contains`. -/
def containsChars (tok : List Char) : List Char → Bool
  | [] => List.isPrefixOf tok []
  | c :: cs => List.isPrefixOf tok (c :: cs) || containsChars tok cs

/-- The change IR: the closed set of mutation primitives of the tool
(`src/src/changes/`).  Structural equality mirrors the derived `PartialEq`
used by the repository's tests. -/
inductive Change where
  | RenameFile (fromPath toPath : FsPath)
  | ReplaceInFile (path : FsPath) (pattern replacement : String)
  | AppendIniEntry (path : FsPath) (sectionName key value : String)
  | SetIniEntry (path : FsPath) (sectionName key value : String)
deriving DecidableEq, Repr

/-- One file of the modelled filesystem: a path and an optional content
(`none` = exists but unreadable). -/
structure FsFile where
  path : FsPath
  content : Option String
deriving DecidableEq, Repr

/-- A filesystem state: the finite list of files, in directory-walk order. -/
abbrev Fs := List FsFile

/-- Content of the file at `p`, when present and readable. -/
def contentOf (fs : Fs) (p : FsPath) : Option String :=
  (fs.find? (fun f => f.path = p)).bind (fun f => f.content)

/-- Files under `root`, in walk order: models `WalkDir::new(root)` /
`read_dir` enumerations restricted to a subtree. -/
def walkFiles (root : FsPath) (fs : Fs) : Fs :=
  fs.filter (fun f => pathLe root f.path)

/-- Strip a path prefix, returning the relative remainder: models Rust
`Path::strip_prefix`. -/
def stripPathPre : FsPath → FsPath → Option FsPath
  | [], p => some p
  | _ :: _, [] => none
  | a :: as', b :: bs => if a = b then stripPathPre as' bs else none

/-- Does the final path component have extension `cpp`? Models the
`path.extension().map_or(false, |ext| ext == "cpp")` filter. -/
def isCppFile (p : FsPath) : Bool :=
  match p.getLast? with
  | some nm => extensionOf nm = some "cpp"
  | none => false

/-- Drop a `.Target.cs` suffix from a file name, as in
`filename.strip_suffix(".Target.cs")`. -/
def dropTcs (nm : String) : Option String :=
  if ((".Target.cs").data).isSuffixOf nm.data then
    some (String.mk (nm.data.take (nm.data.length - ((".Target.cs").data).length)))
  else none

namespace RenameModule

/-- A module descriptor handed to the generator (`crate::unreal::Module`). -/
structure Module where
  root : FsPath
  name : String
deriving DecidableEq, Repr

/-- The module-rename generator context
(`src/src/workflows/rename_module/context.rs`, as destructured by
`generate_changeset`). -/
structure MContext where
  project_root : FsPath
  project_name : String
  target_module : Module
  target_name : String
deriving DecidableEq, Repr

/-- Lazy capture of the `impl` group of
`IMPLEMENT_(GAME_|PRIMARY_GAME_)?MODULE\((?P<impl>.+?),`: shortest
non-empty newline-free run of characters followed by a comma. -/
def grabUntilComma (acc : List Char) : List Char → Option (List Char × List Char)
  | [] => none
  | c :: cs =>
    if c = '\n' then none
    else
      match cs with
      | ',' :: rest => some (acc ++ [c], rest)
      | _ => grabUntilComma (acc ++ [c]) cs

/-- Match the module-init macro pattern at the start of `s`, returning the
`macro` and `impl` captures.  The three branches realise the alternation
`(GAME_|PRIMARY_GAME_)?` (leftmost-first, with backtracking folded into
three disjoint literal attempts). -/
def matchImplAt (s : List Char) : Option (String × String) :=
  match stripPre (("IMPLEMENT_").data) s with
  | none => none
  | some r =>
    match stripPre (("GAME_MODULE(").data) r with
    | some r2 => (grabUntilComma [] r2).map (fun x => ("IMPLEMENT_GAME_MODULE", String.mk x.1))
    | none =>
      match stripPre (("PRIMARY_GAME_MODULE(").data) r with
      | some r2 =>
        (grabUntilComma [] r2).map (fun x => ("IMPLEMENT_PRIMARY_GAME_MODULE", String.mk x.1))
      | none =>
        match stripPre (("MODULE(").data) r with
        | some r2 => (grabUntilComma [] r2).map (fun x => ("IMPLEMENT_MODULE", String.mk x.1))
        | none => none

/-- Leftmost match of the module-init macro pattern in the content: models
`Regex::captures`, which returns the leftmost match. -/
def firstImplCapture : List Char → Option (String × String)
  | [] => none
  | c :: cs =>
    match matchImplAt (c :: cs) with
    | some r => some r
    | none => firstImplCapture cs

/-- Discovery of the module "implementation" source file: the first `.cpp`
file under the module root whose content contains `_MODULE`
(`find_mod_implementation`); unreadable contents count as non-matches. -/
def find_mod_implementation (mod_root : FsPath) (fs : Fs) : Option FsPath :=
  ((walkFiles mod_root fs).find? (fun f =>
    isCppFile f.path &&
      (match f.content with
       | some c => containsChars (("_MODULE").data) c.data
       | none => false))).map (fun f => f.path)

/-- The conditional implementation-file rewrite (`update_mod_implementation`).
The source `unwrap`s both the file read and the regex captures; a failing
`unwrap` (panic) is modelled as `none`. -/
def update_mod_implementation (implementation_file : FsPath) (content : Option String)
    (new_name : String) : Option Change :=
  match content with
  | none => none
  | some c =>
    (firstImplCapture c.data).map (fun mi =>
      Change.ReplaceInFile implementation_file ("_MODULE\\(.+\\)")
        (if mi.1 = "IMPLEMENT_PRIMARY_GAME_MODULE" then
          "_MODULE(" ++ mi.2 ++ ", " ++ new_name ++ ", \"" ++ new_name ++ "\")"
        else
          "_MODULE(" ++ mi.2 ++ ", " ++ new_name ++ ")"))

/-- Files under the module root whose content contains `<NAME>_API`
(the source's `get_files_including_api_macro`, renamed here), as
module-relative paths; unreadable contents count as non-matches. -/
def get_files_including_api_files (mod_root : FsPath) (mod_name : String) (fs : Fs) :
    List FsPath :=
  ((walkFiles mod_root fs).filter (fun f =>
    match f.content with
    | some c => containsChars ((strUpper mod_name).data ++ ("_API").data) c.data
    | none => false)).filterMap (fun f => stripPathPre mod_root f.path)

/-- Rewrite of the module build-descriptor contents (`rename_build_class`). -/
def rename_build_class (mod_root : FsPath) (old_project_name new_project_name : String) :
    Change :=
  Change.ReplaceInFile (mod_root ++ [withExt old_project_name ("Build.cs")])
    old_project_name new_project_name

/-- Rename of the module build-descriptor file (`rename_build_file`). -/
def rename_build_file (mod_root : FsPath) (old_project_name new_project_name : String) :
    Change :=
  Change.RenameFile (mod_root ++ [withExt old_project_name ("Build.cs")])
    (mod_root ++ [withExt new_project_name ("Build.cs")])

/-- Per-header export-token rewrite (`replace_api_macro_in_header_file`). -/
def replace_api_macro_in_header_file (mod_root : FsPath) (header : FsPath)
    (old_project_name new_project_name : String) : Change :=
  Change.ReplaceInFile (mod_root ++ header)
    (strUpper old_project_name ++ "_API") (strUpper new_project_name ++ "_API")

/-- Rename of the module source subfolder (`rename_source_subfolder`). -/
def rename_source_subfolder (mod_root : FsPath) (new_project_name : String) : Change :=
  Change.RenameFile mod_root (withFileName mod_root new_project_name)

/-- Build-target file names in `<root>/Source` (`find_target_file_names`):
entries of that directory whose name ends in `.Target.cs`, suffix
stripped. -/
def find_target_file_names (project_root : FsPath) (fs : Fs) : List String :=
  fs.filterMap (fun f =>
    match stripPathPre (project_root ++ ["Source"]) f.path with
    | some [nm] => dropTcs nm
    | _ => none)

/-- Module-name rewrite inside a build-target file
(`replace_mod_reference_in_target`). -/
def replace_mod_reference_in_target (target : FsPath) (old_name new_name : String) : Change :=
  Change.ReplaceInFile target ("\"" ++ old_name ++ "\"") ("\"" ++ new_name ++ "\"")

/-- Module-name rewrite inside the project descriptor
(`replace_mod_reference_in_project_descriptor`). -/
def replace_mod_reference_in_project_descriptor (project_root : FsPath)
    (project_name old_name new_name : String) : Change :=
  Change.ReplaceInFile (project_root ++ [withExt project_name ("uproject")])
    ("\"" ++ old_name ++ "\"") ("\"" ++ new_name ++ "\"")

/-- Rewrite of existing redirect entries targeting the old module
(`update_existing_redirects`). -/
def update_existing_redirects (project_root : FsPath) (old_name new_name : String) : Change :=
  Change.ReplaceInFile (project_root ++ ["Config", "DefaultEngine.ini"])
    ("\\(OldName=\"(?P<old>.+?)\",\\s*NewName=\"/Script/" ++ old_name ++ "\"\\)")
    ("(OldName=\"$old\", NewName=\"/Script/" ++ new_name ++ "\")")

/-- Appended redirect entry recording the module rename (`append_mod_redirect`). -/
def append_mod_redirect (project_root : FsPath) (old_name new_name : String) : Change :=
  Change.AppendIniEntry (project_root ++ ["Config", "DefaultEngine.ini"])
    ("CoreRedirects") ("+PackageRedirects")
    ("(OldName=\"/Script/" ++ old_name ++ "\",NewName=\"/Script/" ++ new_name ++ "\")")

/-- The optional implementation-rewrite segment of the plan: empty when no
implementation file is discovered, a single change when discovered and the
macro capture succeeds, and `none` (modelling the `unwrap` panic) when
discovered but the capture fails. -/
def mImplChanges (mod_root : FsPath) (new_name : String) (fs : Fs) : Option (List Change) :=
  match find_mod_implementation mod_root fs with
  | none => some []
  | some p => (update_mod_implementation p (contentOf fs p) new_name).map (fun c => [c])

/-- The module-rename plan generator (`generate_changeset`), assembling the
fixed hand-ordered sequence of changes.  `none` models a generation panic. -/
def generate_changeset (context : MContext) (fs : Fs) : Option (List Change) :=
  match mImplChanges context.target_module.root context.target_name fs with
  | none => none
  | some implSeg =>
    some
      ([rename_build_class context.target_module.root context.target_module.name
          context.target_name,
        rename_build_file context.target_module.root context.target_module.name
          context.target_name] ++
       implSeg ++
       (get_files_including_api_files context.target_module.root context.target_module.name
          fs).map (fun header =>
            replace_api_macro_in_header_file context.target_module.root header
              context.target_module.name context.target_name) ++
       [rename_source_subfolder context.target_module.root context.target_name] ++
       (find_target_file_names context.project_root fs).map (fun target_name =>
         replace_mod_reference_in_target
           (context.project_root ++ ["Source", withExt target_name ("Target.cs")])
           context.target_module.name context.target_name) ++
       [replace_mod_reference_in_project_descriptor context.project_root context.project_name
          context.target_module.name context.target_name,
        update_existing_redirects context.project_root context.target_module.name
          context.target_name,
        append_mod_redirect context.project_root context.target_module.name
          context.target_name])

end RenameModule

namespace RenameProject

/-- The project-rename generator context
(`src/src/workflows/rename_project/context.rs`, as destructured by
`generate_code_changeset`; the `project_type` field is ignored there). -/
structure PContext where
  project_root : FsPath
  project_name : String
  target_name : String
deriving DecidableEq, Repr

/-- Build-target file names in `<root>/Source`: `find_target_file_names` in
`code.rs` is verbatim identical to the one in the module workflow. -/
def find_target_file_names (project_root : FsPath) (fs : Fs) : List String :=
  RenameModule.find_target_file_names project_root fs

/-- Project-name rewrite inside the project descriptor
(`replace_in_project_descriptor`). -/
def replace_in_project_descriptor (project_root : FsPath)
    (old_project_name new_project_name : String) : Change :=
  Change.ReplaceInFile (project_root ++ [withExt old_project_name ("uproject")])
    old_project_name new_project_name

/-- Rename of the project descriptor file (`rename_project_descriptor`). -/
def rename_project_descriptor (project_root : FsPath)
    (old_project_name new_project_name : String) : Change :=
  Change.RenameFile (project_root ++ [withExt old_project_name ("uproject")])
    (project_root ++ [withExt new_project_name ("uproject")])

/-- Rewrite of existing game-name redirect entries
(`update_redirects_in_engine_config`): the pattern matches any
`(OldGameName="...", NewGameName="...")` pair, whatever the current
target. -/
def update_redirects_in_engine_config (project_root : FsPath) (new_project_name : String) :
    Change :=
  Change.ReplaceInFile (project_root ++ ["Config", "DefaultEngine.ini"])
    ("\\(OldGameName=\"(?P<old>.+?)\",\\s*NewGameName=\".+?\"\\)")
    ("(OldGameName=\"$old\", NewGameName=\"/Script/" ++ new_project_name ++ "\")")

/-- Appended game-name redirect entry (`append_redirect_to_engine_config`). -/
def append_redirect_to_engine_config (project_root : FsPath)
    (old_project_name new_project_name : String) : Change :=
  Change.AppendIniEntry (project_root ++ ["Config", "DefaultEngine.ini"])
    ("/Script/Engine.Engine") ("+ActiveGameNameRedirects")
    ("(OldGameName=\"/Script/" ++ old_project_name ++ "\", NewGameName=\"/Script/" ++
      new_project_name ++ "\")")

/-- Scalar game-name entry (`add_game_name_to_engine_config`). -/
def add_game_name_to_engine_config (project_root : FsPath) (new_project_name : String) :
    Change :=
  Change.SetIniEntry (project_root ++ ["Config", "DefaultEngine.ini"])
    ("URL") ("GameName") new_project_name

/-- Scalar project-name entry (`add_project_name_to_game_config`). -/
def add_project_name_to_game_config (project_root : FsPath) (new_project_name : String) :
    Change :=
  Change.SetIniEntry (project_root ++ ["Config", "DefaultGame.ini"])
    ("/Script/EngineSettings.GeneralProjectSettings") ("ProjectName") new_project_name

/-- Rename of the project root directory (`rename_project_root`). -/
def rename_project_root (project_root : FsPath) (new_project_name : String) : Change :=
  Change.RenameFile project_root (withFileName project_root new_project_name)

/-- Modelled from the spec: the per-target sub-plan generator
`generate_target_changeset` lives in
`src/src/workflows/rename_project/changesets/target.rs`, which is not
included under `src/`.  It is modelled from §4.4's description of the
target-rename sub-plan and from the expected plan of the repository's own
test `code_changeset_is_correct`: rewrite+rename of the executable and
editor target files, rewrite+rename of the target module's build file,
export-token rewrites of the discovered header files (passed here as the
`headers` parameter, file names relative to the module directory), rename
of the module's main header, rewrite+rename of the module's main source
file, and rename of the module source subfolder. -/
def generate_target_changeset (old_target_name new_target_name : String)
    (project_root : FsPath) (headers : List String) : List Change :=
  [Change.ReplaceInFile (project_root ++ ["Source", old_target_name ++ ".Target.cs"])
      old_target_name new_target_name,
   Change.RenameFile (project_root ++ ["Source", old_target_name ++ ".Target.cs"])
      (project_root ++ ["Source", new_target_name ++ ".Target.cs"]),
   Change.ReplaceInFile (project_root ++ ["Source", old_target_name ++ "Editor.Target.cs"])
      old_target_name new_target_name,
   Change.RenameFile (project_root ++ ["Source", old_target_name ++ "Editor.Target.cs"])
      (project_root ++ ["Source", new_target_name ++ "Editor.Target.cs"]),
   Change.ReplaceInFile
      (project_root ++ ["Source", old_target_name, old_target_name ++ ".Build.cs"])
      old_target_name new_target_name,
   Change.RenameFile
      (project_root ++ ["Source", old_target_name, old_target_name ++ ".Build.cs"])
      (project_root ++ ["Source", old_target_name, new_target_name ++ ".Build.cs"])] ++
  headers.map (fun h =>
    Change.ReplaceInFile (project_root ++ ["Source", old_target_name, h])
      (strUpper old_target_name ++ "_API") (strUpper new_target_name ++ "_API")) ++
  [Change.RenameFile (project_root ++ ["Source", old_target_name, old_target_name ++ ".h"])
      (project_root ++ ["Source", old_target_name, new_target_name ++ ".h"]),
   Change.ReplaceInFile (project_root ++ ["Source", old_target_name, old_target_name ++ ".cpp"])
      old_target_name new_target_name,
   Change.RenameFile (project_root ++ ["Source", old_target_name, old_target_name ++ ".cpp"])
      (project_root ++ ["Source", old_target_name, new_target_name ++ ".cpp"]),
   Change.RenameFile (project_root ++ ["Source", old_target_name])
      (project_root ++ ["Source", new_target_name])]

/-- The per-target loop of `generate_code_changeset`: one synchronous stdin
read per discovered target (`request_final_target_name`, modelled by
consuming one line of the `stdin` parameter; `headD ""` models
`read_line` returning an empty buffer at end of input), followed by that
target's sub-plan. -/
def targetSubplans (project_root : FsPath) (headersOf : String → List String) :
    List String → List String → List Change
  | [], _ => []
  | t :: ts, stdin =>
    generate_target_changeset t (stdin.headD "") project_root (headersOf t) ++
      targetSubplans project_root headersOf ts stdin.tail

/-- The project-rename code generator (`generate_code_changeset`): the
per-target sub-plans (target names read from the console during
generation), then the fixed seven-change tail, in source order.  The
`headersOf` parameter supplies the spec-modelled sub-plan's header
discovery per target; `stdin` is the sequence of console lines (already
trimmed) consumed by `request_final_target_name`. -/
def generate_code_changeset (context : PContext) (fs : Fs)
    (headersOf : String → List String) (stdin : List String) : List Change :=
  targetSubplans context.project_root headersOf
      (find_target_file_names context.project_root fs) stdin ++
  [update_redirects_in_engine_config context.project_root context.target_name,
   append_redirect_to_engine_config context.project_root context.project_name
     context.target_name,
   add_game_name_to_engine_config context.project_root context.target_name,
   add_project_name_to_game_config context.project_root context.target_name,
   replace_in_project_descriptor context.project_root context.project_name
     context.target_name,
   rename_project_descriptor context.project_root context.project_name context.target_name,
   rename_project_root context.project_root context.target_name]

end RenameProject

/-!
Pattern-substitution engine.

Modelled from the spec: the executor that applies a `ReplaceInFile`
change (the pattern-substitution engine of §4.2, `replace_in_file` in the
repository) is not included under `src/`.  The two regex patterns with
capture groups that the generators construct are embedded here as direct
matchers with the semantics of §4.2 (all non-overlapping matches,
leftmost-first; `$name` capture substitution), specialised to the two
pattern shapes:

* module redirects: `\(OldName="(?P<old>.+?)",\s*NewName="/Script/OLD"\)`,
* project redirects: `\(OldGameName="(?P<old>.+?)",\s*NewGameName=".+?"\)`.

`.+?` is a lazy (shortest, at least one), newline-free run; `\s*` is
modelled by a greedy whitespace drop, which agrees with the regex because
the literal that follows starts with the non-whitespace character `N`.
-/

/-- Whitespace class for `\s*` (the characters that occur in the files the
tool edits). -/
def isWsChar (c : Char) : Bool := c = ' ' || c = '\t' || c = '\n' || c = '\r'

/-- The literal tail of the module-redirect pattern beyond the capture:
`NewName="/Script/OLD")`. -/
def mrTail (old_name : List Char) : List Char :=
  ("NewName=\"/Script/").data ++ old_name ++ ("\")").data

/-- Attempt to close a module-redirect match right after the capture:
`",` then `\s*` then the literal tail. -/
def mrClose (old_name s : List Char) : Option (List Char) :=
  match stripPre (("\",").data) s with
  | none => none
  | some r => stripPre (mrTail old_name) (r.dropWhile isWsChar)

/-- Lazy capture scan of the module-redirect pattern: consume at least one
newline-free character, closing as early as possible. -/
def mrGrab (old_name acc : List Char) : List Char → Option (List Char × List Char)
  | [] => none
  | c :: cs =>
    if c = '\n' then none
    else
      match mrClose old_name cs with
      | some rest => some (acc ++ [c], rest)
      | none => mrGrab old_name (acc ++ [c]) cs

/-- Match the module-redirect pattern at the start of `s`, returning the
`old` capture and the remainder of `s`. -/
def mrMatch (old_name s : List Char) : Option (List Char × List Char) :=
  match stripPre (("(OldName=\"").data) s with
  | none => none
  | some r => mrGrab old_name [] r

/-- The module-redirect replacement `(OldName="$old", NewName="/Script/NEW")`
with the capture substituted. -/
def mrRender (x new_name : List Char) : List Char :=
  ("(OldName=\"").data ++ x ++ ("\", NewName=\"/Script/").data ++ new_name ++ ("\")").data

/-- Fuelled left-to-right scan replacing every non-overlapping
module-redirect match (fuel bounds the number of steps; callers pass the
content length, which suffices since every step consumes at least one
character). -/
def mrGo (old_name new_name : List Char) : Nat → List Char → List Char
  | 0, s => s
  | _ + 1, [] => []
  | fuel + 1, c :: cs =>
    match mrMatch old_name (c :: cs) with
    | some (x, rest) => mrRender x new_name ++ mrGo old_name new_name fuel rest
    | none => c :: mrGo old_name new_name fuel cs

/-- Apply the module-redirect substitution of `update_existing_redirects`
to a file content. -/
def mrReplaceAll (old_name new_name : String) (s : List Char) : List Char :=
  mrGo old_name.data new_name.data s.length s

/-- A rendered module redirect entry `(OldName="X", NewName="T")`. -/
def mrEntry (x target : List Char) : List Char :=
  ("(OldName=\"").data ++ x ++ ("\", NewName=\"").data ++ target ++ ("\")").data

/-- Lazy scan of the second (non-captured) group of the project-redirect
pattern: at least one newline-free character, then the literal `")`. -/
def pgGrab2 : List Char → Option (List Char)
  | [] => none
  | c :: cs =>
    if c = '\n' then none
    else
      match stripPre (("\")").data) cs with
      | some rest => some rest
      | none => pgGrab2 cs

/-- Attempt to close a project-redirect match right after the capture:
`",` then `\s*` then `NewGameName="` then the lazy group and `")`. -/
def pgClose1 (s : List Char) : Option (List Char) :=
  match stripPre (("\",").data) s with
  | none => none
  | some r =>
    match stripPre (("NewGameName=\"").data) (r.dropWhile isWsChar) with
    | none => none
    | some r2 => pgGrab2 r2

/-- Lazy capture scan of the project-redirect pattern. -/
def pgGrab1 (acc : List Char) : List Char → Option (List Char × List Char)
  | [] => none
  | c :: cs =>
    if c = '\n' then none
    else
      match pgClose1 cs with
      | some rest => some (acc ++ [c], rest)
      | none => pgGrab1 (acc ++ [c]) cs

/-- Match the project-redirect pattern at the start of `s`. -/
def pgMatch (s : List Char) : Option (List Char × List Char) :=
  match stripPre (("(OldGameName=\"").data) s with
  | none => none
  | some r => pgGrab1 [] r

/-- The project-redirect replacement
`(OldGameName="$old", NewGameName="/Script/NEW")` with the capture
substituted. -/
def pgRender (x new_name : List Char) : List Char :=
  ("(OldGameName=\"").data ++ x ++ ("\", NewGameName=\"/Script/").data ++ new_name ++
    ("\")").data

/-- Fuelled scan replacing every non-overlapping project-redirect match. -/
def pgGo (new_name : List Char) : Nat → List Char → List Char
  | 0, s => s
  | _ + 1, [] => []
  | fuel + 1, c :: cs =>
    match pgMatch (c :: cs) with
    | some (x, rest) => pgRender x new_name ++ pgGo new_name fuel rest
    | none => c :: pgGo new_name fuel cs

/-- Apply the project-redirect substitution of
`update_redirects_in_engine_config` to a file content. -/
def pgReplaceAll (new_name : String) (s : List Char) : List Char :=
  pgGo new_name.data s.length s

/-- A rendered game-name redirect entry `(OldGameName="X", NewGameName="T")`. -/
def pgEntry (x target : List Char) : List Char :=
  ("(OldGameName=\"").data ++ x ++ ("\", NewGameName=\"").data ++ target ++ ("\")").data

/-- A non-empty character chunk free of double quotes and newlines: the
shape of the identifier-like fragments (`/Script/...` values, names)
appearing inside redirect entries. -/
def safeChunk (s : List Char) : Prop := s ≠ [] ∧ ∀ c ∈ s, c ≠ '"' ∧ c ≠ '\n'

/-- Is a change a filesystem rename? -/
def isRenameC : Change → Bool
  | Change.RenameFile _ _ => true
  | _ => false

/-- Is a change a content rewrite? -/
def isReplaceC : Change → Bool
  | Change.ReplaceInFile _ _ _ => true
  | _ => false

/-- Is a change a configuration-entry change? -/
def isIniC : Change → Bool
  | Change.AppendIniEntry _ _ _ _ => true
  | Change.SetIniEntry _ _ _ _ => true
  | _ => false

/-- Suffix-closed form of the ordering invariant: whenever the plan renames
`f`, no later change rewrites the contents of a file at or under `f`. -/
def OrderedPlan (plan : List Change) : Prop :=
  ∀ pre f t post, plan = pre ++ Change.RenameFile f t :: post →
    ∀ p pat rep, Change.ReplaceInFile p pat rep ∈ post → pathLe f p = false

/-- Index form of the ordering invariant of §8: for every file edited by a
`ReplaceInFile` and renamed (directly or through an ancestor directory) in
the same plan, the edit's index is strictly below the rename's index. -/
def editBeforeAffectingRename (plan : List Change) : Prop :=
  ∀ (i j : Fin plan.length) p pat rep f t,
    plan.get i = Change.ReplaceInFile p pat rep →
    plan.get j = Change.RenameFile f t →
    pathLe f p = true → (i : Nat) < (j : Nat)

/-- The `ReplaceInFile` changes of a plan whose target is the path `p`. -/
def editsOnPath (plan : List Change) (p : FsPath) : List Change :=
  plan.filter (fun c =>
    match c with
    | Change.ReplaceInFile q _ _ => q = p
    | _ => false)

/-! ### Toolkit lemmas: strings, paths, matching primitives -/

theorem strData_append (a b : String) : (a ++ b).data = a.data ++ b.data := by
  cases a; cases b; rfl

theorem strEq_of_data {a b : String} (h : a.data = b.data) : a = b := by
  cases a; cases b; exact congrArg String.mk h

theorem str_append_right_cancel {a b s : String} (h : a ++ s = b ++ s) : a = b := by
  apply strEq_of_data
  have h2 := congrArg String.data h
  rw [strData_append, strData_append] at h2
  exact List.append_cancel_right h2

theorem str_append_left_cancel {a b s : String} (h : s ++ a = s ++ b) : a = b := by
  apply strEq_of_data
  have h2 := congrArg String.data h
  rw [strData_append, strData_append] at h2
  exact List.append_cancel_left h2

theorem str_append_ne_self {a s : String} (h : s.data ≠ []) : a ++ s ≠ a := by
  intro he
  have h2 := congrArg (fun x => x.data.length) he
  simp [strData_append] at h2
  exact h (List.length_eq_zero.mp h2)

theorem isPrefixOf_self_append {α : Type} [BEq α] [LawfulBEq α] (a r : List α) :
    List.isPrefixOf a (a ++ r) = true := by
  induction a with
  | nil => simp [List.isPrefixOf]
  | cons c cs ih => simp [List.isPrefixOf, ih]

theorem isSuffixOf_append_self (s a : List Char) : List.isSuffixOf s (a ++ s) = true := by
  simp [List.isSuffixOf, List.reverse_append, isPrefixOf_self_append]

theorem pathLe_append_both (r a b : FsPath) : pathLe (r ++ a) (r ++ b) = pathLe a b := by
  induction r with
  | nil => rfl
  | cons x xs ih => simpa [pathLe, List.isPrefixOf] using ih

theorem pathLe_same (a : FsPath) : pathLe a a = true := by
  have h := isPrefixOf_self_append a ([] : FsPath)
  rw [List.append_nil] at h
  exact h

theorem stripPre_eq_some {p : List Char} :
    ∀ {s r : List Char}, stripPre p s = some r ↔ s = p ++ r := by
  induction p with
  | nil => intro s r; simp [stripPre]
  | cons c cs ih =>
    intro s r
    cases s with
    | nil => simp [stripPre]
    | cons d ds =>
      by_cases hcd : c = d
      · subst hcd; simp [stripPre, ih]
      · refine ⟨fun h => ?_, fun h => ?_⟩
        · rw [show stripPre (c :: cs) (d :: ds) = none from by simp [stripPre, hcd]] at h
          exact Option.noConfusion h
        · injection h with h1 h2
          exact absurd h1.symm hcd

theorem stripPre_self (p r : List Char) : stripPre p (p ++ r) = some r :=
  stripPre_eq_some.mpr rfl

/-! ### Toolkit lemmas: the ordering invariant -/

theorem orderedPlan_nil : OrderedPlan [] := by
  intro pre f t post h
  exact absurd h (by simp)

theorem orderedPlan_tail {c : Change} {rest : List Change} (h : OrderedPlan (c :: rest)) :
    OrderedPlan rest := by
  intro pre f t post hp p pat rep hm
  exact h (c :: pre) f t post (by simp [hp]) p pat rep hm

theorem orderedPlan_cons_of_not_rename {c : Change} {rest : List Change}
    (hc : isRenameC c = false) (h : OrderedPlan rest) : OrderedPlan (c :: rest) := by
  intro pre f t post hp p pat rep hm
  cases pre with
  | nil =>
    simp at hp
    rw [hp.1] at hc
    simp [isRenameC] at hc
  | cons d pre' =>
    simp at hp
    exact h pre' f t post hp.2 p pat rep hm

theorem orderedPlan_cons_rename {f t : FsPath} {rest : List Change}
    (hs : ∀ p pat rep, Change.ReplaceInFile p pat rep ∈ rest → pathLe f p = false)
    (h : OrderedPlan rest) : OrderedPlan (Change.RenameFile f t :: rest) := by
  intro pre f' t' post hp p pat rep hm
  cases pre with
  | nil =>
    simp at hp
    obtain ⟨⟨hf, _⟩, hrest⟩ := hp
    rw [← hf]
    exact hs p pat rep (hrest ▸ hm)
  | cons d pre' =>
    simp at hp
    exact h pre' f' t' post hp.2 p pat rep hm

theorem orderedPlan_rename_head {f t : FsPath} {rest : List Change}
    (h : OrderedPlan (Change.RenameFile f t :: rest)) :
    ∀ p pat rep, Change.ReplaceInFile p pat rep ∈ rest → pathLe f p = false :=
  h [] f t rest rfl

theorem orderedPlan_of_renameFree {xs : List Change} (hx : ∀ c ∈ xs, isRenameC c = false) :
    OrderedPlan xs := by
  induction xs with
  | nil => exact orderedPlan_nil
  | cons c cs ih =>
    exact orderedPlan_cons_of_not_rename (hx c (by simp))
      (ih (fun d hd => hx d (by simp [hd])))

theorem orderedPlan_append {xs ys : List Change} (hx : OrderedPlan xs) (hy : OrderedPlan ys)
    (hcross : ∀ f t, Change.RenameFile f t ∈ xs →
      ∀ p pat rep, Change.ReplaceInFile p pat rep ∈ ys → pathLe f p = false) :
    OrderedPlan (xs ++ ys) := by
  induction xs with
  | nil => simpa using hy
  | cons c xs' ih =>
    have hx' := orderedPlan_tail hx
    have ih' := ih hx' (fun f t hf => hcross f t (by simp [hf]))
    rw [List.cons_append]
    cases hc : c with
    | RenameFile f t =>
      subst hc
      refine orderedPlan_cons_rename ?_ ih'
      intro p pat rep hm
      rcases List.mem_append.mp hm with hm' | hm'
      · exact orderedPlan_rename_head hx p pat rep hm'
      · exact hcross f t (by simp) p pat rep hm'
    | ReplaceInFile q pat rep =>
      exact orderedPlan_cons_of_not_rename (by simp [isRenameC]) ih'
    | AppendIniEntry q s k v =>
      exact orderedPlan_cons_of_not_rename (by simp [isRenameC]) ih'
    | SetIniEntry q s k v =>
      exact orderedPlan_cons_of_not_rename (by simp [isRenameC]) ih'

theorem pathLe_cons_cons (x y : String) (xs ys : FsPath) :
    pathLe (x :: xs) (y :: ys) = ((x == y) && pathLe xs ys) := rfl

theorem pathLe_cons_nil (x : String) (xs : FsPath) : pathLe (x :: xs) [] = false := rfl

theorem pathLe_head_ne_false {a d : String} (h : a ≠ d) (u v : FsPath) :
    pathLe (a :: u) (d :: v) = false := by
  rw [pathLe_cons_cons]
  simp [h]

theorem pathLe_second_ne_false {b e : String} (h : b ≠ e) (a : String) (u v : FsPath) :
    pathLe (a :: b :: u) (a :: e :: v) = false := by
  rw [pathLe_cons_cons, pathLe_cons_cons]
  simp [h]

theorem pathLe_third_ne_false {c f : String} (h : c ≠ f) (a b : String) (u v : FsPath) :
    pathLe (a :: b :: c :: u) (a :: b :: f :: v) = false := by
  rw [pathLe_cons_cons, pathLe_cons_cons, pathLe_cons_cons]
  simp [h]

theorem pathLe_long_single_false (a b x : String) (u : FsPath) :
    pathLe (a :: b :: u) [x] = false := by
  rw [pathLe_cons_cons, pathLe_cons_nil]
  simp

theorem eq_append_of_pathLe : ∀ {a b : FsPath}, pathLe a b = true → ∃ r, b = a ++ r := by
  intro a
  induction a with
  | nil => intro b _; exact ⟨b, rfl⟩
  | cons x xs ih =>
    intro b h
    cases b with
    | nil => rw [pathLe_cons_nil] at h; exact Bool.noConfusion h
    | cons y ys =>
      rw [pathLe_cons_cons] at h
      have h1 : x = y := by
        have := (Bool.and_eq_true _ _).mp h
        exact beq_iff_eq.mp this.1
      have h2 := (Bool.and_eq_true _ _).mp h
      obtain ⟨r, hr⟩ := ih h2.2
      exact ⟨r, by simp [hr, h1]⟩

theorem pathLe_longer_false {a b : FsPath} (h : b.length < a.length) : pathLe a b = false := by
  cases heq : pathLe a b
  · rfl
  · obtain ⟨r, hr⟩ := eq_append_of_pathLe heq
    rw [hr] at h
    simp at h

theorem str_ne_append_right_of_ne {a b : String} (h : a ≠ b) (s : String) :
    a ++ s ≠ b ++ s := fun he => h (str_append_right_cancel he)

theorem str_ne_append_left_of_ne {b c : String} (h : b ≠ c) (a : String) :
    a ++ b ≠ a ++ c := fun he => h (str_append_left_cancel he)

theorem str_append_split (t a b s : String) (h : s.data = a.data ++ b.data) :
    t ++ s = (t ++ a) ++ b := by
  apply strEq_of_data
  rw [strData_append, strData_append, strData_append, List.append_assoc, h]

theorem ne_of_tcs_suffix {t : String}
    (h : List.isSuffixOf ((".Target.cs").data) t.data = false) (x : String) :
    t ≠ x ++ ".Target.cs" := by
  intro he
  rw [he, strData_append, isSuffixOf_append_self] at h
  exact Bool.noConfusion h

theorem editorTcs_split (t : String) :
    t ++ "Editor.Target.cs" = (t ++ "Editor") ++ ".Target.cs" :=
  str_append_split t ("Editor") (".Target.cs") ("Editor.Target.cs") (by decide)

theorem mk_data (l : List Char) : (String.mk l).data = l := rfl

theorem dot_mem_withExt (nm ext : String) : '.' ∈ (withExt nm ext).data := by
  unfold withExt
  cases extSplit nm.data with
  | none => simp [mk_data]
  | some e => simp [mk_data]

theorem ne_withExt_of_no_dot {old : String} (h : ∀ c ∈ old.data, c ≠ '.')
    (nm ext : String) : old ≠ withExt nm ext := by
  intro he
  have hm := dot_mem_withExt nm ext
  rw [← he] at hm
  exact h '.' hm rfl

theorem rename_mem_target_changeset {f t2 : FsPath} {tn n : String} {root : FsPath}
    {hdrs : List String}
    (h : Change.RenameFile f t2 ∈ RenameProject.generate_target_changeset tn n root hdrs) :
    f = root ++ ["Source", tn ++ ".Target.cs"] ∨
    f = root ++ ["Source", tn ++ "Editor.Target.cs"] ∨
    (∃ y, f = root ++ ["Source", tn, y]) ∨ f = root ++ ["Source", tn] := by
  simp [RenameProject.generate_target_changeset] at h
  rcases h with ⟨h1, -⟩ | ⟨h1, -⟩ | ⟨h1, -⟩ | ⟨h1, -⟩ | ⟨h1, -⟩ | ⟨h1, -⟩
  · exact Or.inl h1
  · exact Or.inr (Or.inl h1)
  · exact Or.inr (Or.inr (Or.inl ⟨_, h1⟩))
  · exact Or.inr (Or.inr (Or.inl ⟨_, h1⟩))
  · exact Or.inr (Or.inr (Or.inl ⟨_, h1⟩))
  · exact Or.inr (Or.inr (Or.inr h1))

theorem edit_mem_target_changeset {p : FsPath} {pat rep : String} {tn n : String}
    {root : FsPath} {hdrs : List String}
    (h : Change.ReplaceInFile p pat rep ∈ RenameProject.generate_target_changeset tn n root hdrs) :
    p = root ++ ["Source", tn ++ ".Target.cs"] ∨
    p = root ++ ["Source", tn ++ "Editor.Target.cs"] ∨
    (∃ y, p = root ++ ["Source", tn, y]) := by
  simp [RenameProject.generate_target_changeset] at h
  rcases h with ⟨h1, -⟩ | ⟨h1, -⟩ | ⟨h1, -⟩ | ⟨y, hy, h1, -⟩ | ⟨h1, -⟩
  · exact Or.inl h1
  · exact Or.inr (Or.inl h1)
  · exact Or.inr (Or.inr ⟨_, h1⟩)
  · exact Or.inr (Or.inr ⟨_, h1.symm⟩)
  · exact Or.inr (Or.inr ⟨_, h1⟩)

theorem rename_mem_subplans {f t2 : FsPath} {root : FsPath} {headersOf : String → List String} :
    ∀ {ts stdin : List String},
      Change.RenameFile f t2 ∈ RenameProject.targetSubplans root headersOf ts stdin →
      ∃ tn ∈ ts,
        f = root ++ ["Source", tn ++ ".Target.cs"] ∨
        f = root ++ ["Source", tn ++ "Editor.Target.cs"] ∨
        (∃ y, f = root ++ ["Source", tn, y]) ∨ f = root ++ ["Source", tn] := by
  intro ts
  induction ts with
  | nil => intro stdin h; rw [RenameProject.targetSubplans] at h; exact absurd h (by simp)
  | cons t ts ih =>
    intro stdin h
    rw [RenameProject.targetSubplans] at h
    rcases List.mem_append.mp h with h' | h'
    · exact ⟨t, by simp, rename_mem_target_changeset h'⟩
    · obtain ⟨tn, htn, hd⟩ := ih h'
      exact ⟨tn, by simp [htn], hd⟩

theorem edit_mem_subplans {p : FsPath} {pat rep : String} {root : FsPath}
    {headersOf : String → List String} :
    ∀ {ts stdin : List String},
      Change.ReplaceInFile p pat rep ∈ RenameProject.targetSubplans root headersOf ts stdin →
      ∃ tn ∈ ts,
        p = root ++ ["Source", tn ++ ".Target.cs"] ∨
        p = root ++ ["Source", tn ++ "Editor.Target.cs"] ∨
        (∃ y, p = root ++ ["Source", tn, y]) := by
  intro ts
  induction ts with
  | nil => intro stdin h; rw [RenameProject.targetSubplans] at h; exact absurd h (by simp)
  | cons t ts ih =>
    intro stdin h
    rw [RenameProject.targetSubplans] at h
    rcases List.mem_append.mp h with h' | h'
    · exact ⟨t, by simp, edit_mem_target_changeset h'⟩
    · obtain ⟨tn, htn, hd⟩ := ih h'
      exact ⟨tn, by simp [htn], hd⟩

theorem tcs_ne_editorTcs (tn : String) : tn ++ ".Target.cs" ≠ tn ++ "Editor.Target.cs" :=
  str_ne_append_left_of_ne (by decide) tn

theorem tcs_ne_self (tn : String) : tn ++ ".Target.cs" ≠ tn :=
  str_append_ne_self (by decide)

theorem editorTcs_ne_self (tn : String) : tn ++ "Editor.Target.cs" ≠ tn :=
  str_append_ne_self (by decide)

theorem orderedPlan_target_changeset (tn n : String) (root : FsPath) (hdrs : List String)
    (hHdr : ∀ h ∈ hdrs, h ≠ tn ++ ".Build.cs") :
    OrderedPlan (RenameProject.generate_target_changeset tn n root hdrs) := by
  rw [RenameProject.generate_target_changeset, List.append_assoc]
  apply orderedPlan_append
  · -- the first six changes
    refine orderedPlan_cons_of_not_rename rfl ?_
    refine orderedPlan_cons_rename ?_ ?_
    · intro p pat rep hm
      simp at hm
      rcases hm with ⟨h1, -⟩ | ⟨h1, -⟩
      · subst h1
        rw [pathLe_append_both]
        exact pathLe_second_ne_false (tcs_ne_editorTcs tn) _ _ _
      · subst h1
        rw [pathLe_append_both]
        exact pathLe_second_ne_false (tcs_ne_self tn) _ _ _
    refine orderedPlan_cons_of_not_rename rfl ?_
    refine orderedPlan_cons_rename ?_ ?_
    · intro p pat rep hm
      simp at hm
      obtain ⟨h1, -⟩ := hm
      subst h1
      rw [pathLe_append_both]
      exact pathLe_second_ne_false (editorTcs_ne_self tn) _ _ _
    refine orderedPlan_cons_of_not_rename rfl ?_
    refine orderedPlan_cons_rename ?_ orderedPlan_nil
    intro p pat rep hm
    exact absurd hm (by simp)
  · -- the header rewrites followed by the last four changes
    apply orderedPlan_append
    · apply orderedPlan_of_renameFree
      intro c hc
      simp [List.mem_map] at hc
      obtain ⟨y, -, hy⟩ := hc
      rw [← hy]
      rfl
    · refine orderedPlan_cons_rename ?_ ?_
      · intro p pat rep hm
        simp at hm
        obtain ⟨h1, -⟩ := hm
        subst h1
        rw [pathLe_append_both]
        exact pathLe_third_ne_false (str_ne_append_left_of_ne (by decide) tn) _ _ _ _
      refine orderedPlan_cons_of_not_rename rfl ?_
      refine orderedPlan_cons_rename ?_ ?_
      · intro p pat rep hm
        exact absurd hm (by simp)
      refine orderedPlan_cons_rename ?_ orderedPlan_nil
      intro p pat rep hm
      exact absurd hm (by simp)
    · intro f t hf p pat rep hp
      exact absurd hf (by simp)
  · -- renames among the first six against later edits
    intro f t hf p pat rep hp
    have hf3 : f = root ++ ["Source", tn ++ ".Target.cs"] ∨
        f = root ++ ["Source", tn ++ "Editor.Target.cs"] ∨
        f = root ++ ["Source", tn, tn ++ ".Build.cs"] := by
      simp at hf
      rcases hf with ⟨h1, -⟩ | ⟨h1, -⟩ | ⟨h1, -⟩
      · exact Or.inl h1
      · exact Or.inr (Or.inl h1)
      · exact Or.inr (Or.inr h1)
    have hp2 : (∃ y, y ∈ hdrs ∧ p = root ++ ["Source", tn, y]) ∨
        p = root ++ ["Source", tn, tn ++ ".cpp"] := by
      rcases List.mem_append.mp hp with h' | h'
      · simp [List.mem_map] at h'
        obtain ⟨y, hy, h1, -⟩ := h'
        exact Or.inl ⟨y, hy, h1.symm⟩
      · simp at h'
        obtain ⟨h1, -⟩ := h'
        exact Or.inr h1
    rcases hf3 with h1 | h1 | h1 <;> subst h1 <;>
      rcases hp2 with ⟨y, hy, h2⟩ | h2 <;> subst h2 <;> rw [pathLe_append_both]
    · exact pathLe_second_ne_false (tcs_ne_self tn) _ _ _
    · exact pathLe_second_ne_false (tcs_ne_self tn) _ _ _
    · exact pathLe_second_ne_false (editorTcs_ne_self tn) _ _ _
    · exact pathLe_second_ne_false (editorTcs_ne_self tn) _ _ _
    · exact pathLe_third_ne_false (fun he => hHdr y hy he.symm) _ _ _ _
    · exact pathLe_third_ne_false (str_ne_append_left_of_ne (by decide) tn) _ _ _ _

theorem orderedPlan_subplans (root : FsPath) (headersOf : String → List String) :
    ∀ (ts stdin : List String), ts.Nodup →
      (∀ tn ∈ ts, List.isSuffixOf ((".Target.cs").data) tn.data = false) →
      (∀ tn ∈ ts, ∀ tm ∈ ts, tn ≠ tm ++ "Editor") →
      (∀ tn ∈ ts, ∀ h ∈ headersOf tn, h ≠ tn ++ ".Build.cs") →
      OrderedPlan (RenameProject.targetSubplans root headersOf ts stdin) := by
  intro ts
  induction ts with
  | nil =>
    intro stdin _ _ _ _
    rw [RenameProject.targetSubplans]
    exact orderedPlan_nil
  | cons t ts ih =>
    intro stdin hnd hTcs hEd hHdr
    rw [RenameProject.targetSubplans]
    apply orderedPlan_append
    · exact orderedPlan_target_changeset t _ root _ (hHdr t (by simp))
    · exact ih _ (List.Nodup.of_cons hnd) (fun tn htn => hTcs tn (by simp [htn]))
        (fun tn htn tm htm => hEd tn (by simp [htn]) tm (by simp [htm]))
        (fun tn htn => hHdr tn (by simp [htn]))
    · intro f t2 hf p pat rep hp
      have hf4 := rename_mem_target_changeset hf
      obtain ⟨tm, htm, hp3⟩ := edit_mem_subplans hp
      have htne : t ≠ tm := by
        intro he
        exact (List.nodup_cons.mp hnd).1 (he ▸ htm)
      have hTcsT := hTcs t (by simp)
      have hTcsM := hTcs tm (by simp [htm])
      rcases hf4 with h1 | h1 | ⟨y, h1⟩ | h1 <;> subst h1 <;>
        rcases hp3 with h2 | h2 | ⟨y2, h2⟩ <;> subst h2 <;> rw [pathLe_append_both]
      · -- t.Target.cs vs tm.Target.cs
        exact pathLe_second_ne_false (str_ne_append_right_of_ne htne _) _ _ _
      · -- t.Target.cs vs tmEditor.Target.cs
        refine pathLe_second_ne_false ?_ _ _ _
        rw [editorTcs_split]
        intro he
        exact hEd t (by simp) tm (by simp [htm]) (str_append_right_cancel he)
      · -- t.Target.cs vs [Source, tm, y2]
        refine pathLe_second_ne_false ?_ _ _ _
        intro he
        exact ne_of_tcs_suffix hTcsM t he.symm
      · -- tEditor.Target.cs vs tm.Target.cs
        refine pathLe_second_ne_false ?_ _ _ _
        rw [editorTcs_split]
        intro he
        exact hEd tm (by simp [htm]) t (by simp) (str_append_right_cancel he).symm
      · -- tEditor.Target.cs vs tmEditor.Target.cs
        exact pathLe_second_ne_false (str_ne_append_right_of_ne htne _) _ _ _
      · -- tEditor.Target.cs vs [Source, tm, y2]
        refine pathLe_second_ne_false ?_ _ _ _
        rw [editorTcs_split]
        intro he
        exact ne_of_tcs_suffix hTcsM (t ++ "Editor") he.symm
      · -- [Source, t, y] vs tm.Target.cs
        refine pathLe_second_ne_false ?_ _ _ _
        intro he
        exact ne_of_tcs_suffix hTcsT tm he
      · -- [Source, t, y] vs tmEditor.Target.cs
        refine pathLe_second_ne_false ?_ _ _ _
        rw [editorTcs_split]
        intro he
        exact ne_of_tcs_suffix hTcsT (tm ++ "Editor") he
      · -- [Source, t, y] vs [Source, tm, y2]
        exact pathLe_second_ne_false htne _ _ _
      · -- [Source, t] vs tm.Target.cs
        refine pathLe_second_ne_false ?_ _ _ _
        intro he
        exact ne_of_tcs_suffix hTcsT tm he
      · -- [Source, t] vs tmEditor.Target.cs
        refine pathLe_second_ne_false ?_ _ _ _
        rw [editorTcs_split]
        intro he
        exact ne_of_tcs_suffix hTcsT (tm ++ "Editor") he
      · -- [Source, t] vs [Source, tm, y2]
        exact pathLe_second_ne_false htne _ _ _

theorem orderedPlan_append_renameFree {xs ys : List Change}
    (hx : ∀ c ∈ xs, isRenameC c = false) (hy : OrderedPlan ys) : OrderedPlan (xs ++ ys) :=
  orderedPlan_append (orderedPlan_of_renameFree hx) hy
    (fun f t hf => absurd (hx _ hf) (by simp [isRenameC]))

theorem update_mod_implementation_shape {q : FsPath} {cont : Option String} {nw : String}
    {c : Change} (h : RenameModule.update_mod_implementation q cont nw = some c) :
    ∃ pat rep, c = Change.ReplaceInFile q pat rep := by
  cases cont with
  | none => exact absurd h (by simp [RenameModule.update_mod_implementation])
  | some s =>
    simp only [RenameModule.update_mod_implementation] at h
    cases hc : RenameModule.firstImplCapture s.data with
    | none => rw [hc] at h; exact absurd h (by simp)
    | some mi =>
      rw [hc] at h
      simp at h
      exact ⟨_, _, h.symm⟩

theorem mImplChanges_shape {mr : FsPath} {nw : String} {fs : Fs} {seg : List Change}
    (h : RenameModule.mImplChanges mr nw fs = some seg) :
    seg = [] ∨ ∃ q pat rep, RenameModule.find_mod_implementation mr fs = some q ∧
      seg = [Change.ReplaceInFile q pat rep] := by
  unfold RenameModule.mImplChanges at h
  cases hf : RenameModule.find_mod_implementation mr fs with
  | none => rw [hf] at h; simp at h; exact Or.inl h
  | some q =>
    rw [hf] at h
    simp at h
    obtain ⟨c, hc, hseg⟩ := h
    obtain ⟨pat, rep, hcr⟩ := update_mod_implementation_shape hc
    exact Or.inr ⟨q, pat, rep, rfl, by rw [← hseg, hcr]⟩

theorem orderedPlan_module_core (pr : FsPath) (pn old nw : String) (seg : List Change)
    (hdrs : List FsPath) (tgts : List String)
    (hseg_rf : ∀ c ∈ seg, isRenameC c = false)
    (hseg_path : ∀ p pat rep, Change.ReplaceInFile p pat rep ∈ seg →
      pathLe (pr ++ ["Source", old, withExt old ("Build.cs")]) p = false)
    (hHdr : ∀ h ∈ hdrs, pathLe [withExt old ("Build.cs")] h = false)
    (hDot : ∀ c ∈ old.data, c ≠ '.') :
    OrderedPlan
      ([RenameModule.rename_build_class (pr ++ ["Source", old]) old nw,
        RenameModule.rename_build_file (pr ++ ["Source", old]) old nw] ++ seg ++
       hdrs.map (fun header =>
         RenameModule.replace_api_macro_in_header_file (pr ++ ["Source", old]) header old nw) ++
       [RenameModule.rename_source_subfolder (pr ++ ["Source", old]) nw] ++
       tgts.map (fun tn =>
         RenameModule.replace_mod_reference_in_target
           (pr ++ ["Source", withExt tn ("Target.cs")]) old nw) ++
       [RenameModule.replace_mod_reference_in_project_descriptor pr pn old nw,
        RenameModule.update_existing_redirects pr old nw,
        RenameModule.append_mod_redirect pr old nw]) := by
  simp only [RenameModule.rename_build_class, RenameModule.rename_build_file,
    RenameModule.replace_api_macro_in_header_file, RenameModule.rename_source_subfolder,
    RenameModule.replace_mod_reference_in_target,
    RenameModule.replace_mod_reference_in_project_descriptor,
    RenameModule.update_existing_redirects, RenameModule.append_mod_redirect,
    List.append_assoc, List.cons_append, List.nil_append, List.singleton_append]
  refine orderedPlan_cons_of_not_rename rfl ?_
  refine orderedPlan_cons_rename ?_ ?_
  · intro p pat rep hm
    simp only [List.mem_append, List.mem_cons, List.mem_map] at hm
    rcases hm with hm | ⟨y, hy, he⟩ | he | ⟨tn, htn, he⟩ | he | he | he
    · exact hseg_path p pat rep hm
    · injection he with h1 h2 h3
      rw [← h1, pathLe_append_both]
      show pathLe (["Source", old] ++ [withExt old ("Build.cs")]) (["Source", old] ++ y) = false
      rw [pathLe_append_both]
      exact hHdr y hy
    · exact absurd he (by simp)
    · injection he with h1 h2 h3
      rw [← h1, pathLe_append_both]
      exact pathLe_longer_false (by simp)
    · injection he with h1 h2 h3
      rw [h1, pathLe_append_both]
      exact pathLe_longer_false (by simp)
    · injection he with h1 h2 h3
      rw [h1, pathLe_append_both]
      exact pathLe_head_ne_false (by decide) _ _
    · exact absurd he (by simp)
  refine orderedPlan_append_renameFree hseg_rf ?_
  refine orderedPlan_append_renameFree ?_ ?_
  · intro c hc
    simp only [List.mem_map] at hc
    obtain ⟨y, -, hy⟩ := hc
    rw [← hy]
    rfl
  refine orderedPlan_cons_rename ?_ ?_
  · intro p pat rep hm
    simp only [List.mem_append, List.mem_cons, List.mem_map] at hm
    rcases hm with ⟨tn, htn, he⟩ | he | he | he
    · injection he with h1 h2 h3
      rw [← h1, pathLe_append_both]
      exact pathLe_second_ne_false (ne_withExt_of_no_dot hDot tn ("Target.cs")) _ _ _
    · injection he with h1 h2 h3
      rw [h1, pathLe_append_both]
      exact pathLe_longer_false (by simp)
    · injection he with h1 h2 h3
      rw [h1, pathLe_append_both]
      exact pathLe_head_ne_false (by decide) _ _
    · exact absurd he (by simp)
  apply orderedPlan_of_renameFree
  intro c hc
  simp only [List.mem_append, List.mem_cons, List.mem_map, List.not_mem_nil, or_false] at hc
  rcases hc with ⟨tn, htn, he⟩ | he | he | he
  · rw [← he]; rfl
  · rw [he]; rfl
  · rw [he]; rfl
  · rw [he]; rfl

theorem orderedPlan_implies_editBefore {plan : List Change} (h : OrderedPlan plan) :
    editBeforeAffectingRename plan := by
  intro i j p pat rep f t hi hj hle
  by_contra hlt
  push_neg at hlt
  have hne : (j : Nat) ≠ (i : Nat) := by
    intro he
    have hij : i = j := Fin.ext he.symm
    rw [hij, hj] at hi
    exact Change.noConfusion hi
  have hji : (j : Nat) < (i : Nat) := lt_of_le_of_ne hlt hne
  have hdec : plan = plan.take (j : Nat) ++ Change.RenameFile f t :: plan.drop ((j : Nat) + 1) := by
    conv_lhs => rw [← List.take_append_drop (j : Nat) plan]
    congr 1
    rw [List.drop_eq_getElem_cons j.isLt]
    rw [← List.get_eq_getElem, hj]
  have hmem : Change.ReplaceInFile p pat rep ∈ plan.drop ((j : Nat) + 1) := by
    rw [← hi]
    have hlen : (i : Nat) - ((j : Nat) + 1) < (plan.drop ((j : Nat) + 1)).length := by
      simp [List.length_drop]
      omega
    have hgd : (plan.drop ((j : Nat) + 1)).get ⟨(i : Nat) - ((j : Nat) + 1), hlen⟩ =
        plan.get i := by
      simp [List.get_eq_getElem, List.getElem_drop]
      congr 1
      omega
    rw [← hgd]
    exact List.get_mem _ _ _
  have hfin := h (plan.take (j : Nat)) f t (plan.drop ((j : Nat) + 1)) hdec p pat rep hmem
  rw [hle] at hfin
  exact Bool.noConfusion hfin

/-! ### Claim theorems -/

/-- C7: every plan produced by the project-rename code generator ends with the
rename of the project root directory, immediately preceded by the
project-descriptor rewrite and the project-descriptor rename, which in turn
follow the scalar game-name and project-name ini entries (the whole
seven-change tail is fixed, in this order, after the per-target sub-plans). -/
theorem project_plan_tail_order (context : RenameProject.PContext) (fs : Fs)
    (headersOf : String → List String) (stdin : List String) :
    ∃ pre, RenameProject.generate_code_changeset context fs headersOf stdin =
      pre ++
        [RenameProject.update_redirects_in_engine_config context.project_root
           context.target_name,
         RenameProject.append_redirect_to_engine_config context.project_root
           context.project_name context.target_name,
         RenameProject.add_game_name_to_engine_config context.project_root
           context.target_name,
         RenameProject.add_project_name_to_game_config context.project_root
           context.target_name,
         RenameProject.replace_in_project_descriptor context.project_root
           context.project_name context.target_name,
         RenameProject.rename_project_descriptor context.project_root context.project_name
           context.target_name,
         RenameProject.rename_project_root context.project_root context.target_name] :=
  ⟨_, rfl⟩

/-- C1: at the "Start" → "Finish" input of the repository's own test
`code_changeset_is_correct` (project root at the working directory, one
discovered build target "Start", resolver answer "Finish", one export-token
header), the code generator does NOT emit the project-descriptor rewrite and
rename as the first two changes of the plan; it emits them as the third- and
second-to-last changes, after the scalar ini entries and just before the
project-root rename.  This contradicts the expected order asserted by the
test, by the generator's own doc comment, and by the spec's end-to-end
sentence, all of which place the descriptor rewrite+rename first. -/
theorem project_plan_descriptor_position :
    (RenameProject.generate_code_changeset ⟨[], "Start", "Finish"⟩
        [⟨["Source", "Start.Target.cs"], some ""⟩]
        (fun _ => ["StartGameModeBase.h"]) ["Finish"]).take 2 ≠
      [RenameProject.replace_in_project_descriptor [] ("Start") ("Finish"),
       RenameProject.rename_project_descriptor [] ("Start") ("Finish")] ∧
    (RenameProject.generate_code_changeset ⟨[], "Start", "Finish"⟩
        [⟨["Source", "Start.Target.cs"], some ""⟩]
        (fun _ => ["StartGameModeBase.h"]) ["Finish"]).drop 15 =
      [RenameProject.replace_in_project_descriptor [] ("Start") ("Finish"),
       RenameProject.rename_project_descriptor [] ("Start") ("Finish"),
       RenameProject.rename_project_root [] ("Finish")] := by
  constructor
  · decide
  · decide

theorem targetSubplans_congr (root : FsPath) (headersOf : String → List String) :
    ∀ (ts stdin stdin' : List String), stdin.take ts.length = stdin'.take ts.length →
      RenameProject.targetSubplans root headersOf ts stdin =
        RenameProject.targetSubplans root headersOf ts stdin' := by
  intro ts
  induction ts with
  | nil =>
    intro stdin stdin' _
    rw [RenameProject.targetSubplans, RenameProject.targetSubplans]
  | cons t ts ih =>
    intro stdin stdin' h
    cases stdin with
    | nil =>
      cases stdin' with
      | nil => rfl
      | cons b bs => simp at h
    | cons a as' =>
      cases stdin' with
      | nil => simp at h
      | cons b bs =>
        simp at h
        rw [RenameProject.targetSubplans, RenameProject.targetSubplans]
        simp only [List.headD, List.tail]
        rw [h.1, ih as' bs h.2]

/-- C5 (counterexample): with a fixed context and a fixed filesystem state
(one discovered build target), two runs of the project-rename code generator
that read different console input produce different plans — the new target
name is obtained by a `stdin` read during generation, so context plus
filesystem alone do not determine the plan. -/
theorem project_plan_console_dependent :
    RenameProject.generate_code_changeset ⟨[], "Start", "Finish"⟩
        [⟨["Source", "Start.Target.cs"], some ""⟩] (fun _ => []) ["A"] ≠
      RenameProject.generate_code_changeset ⟨[], "Start", "Finish"⟩
        [⟨["Source", "Start.Target.cs"], some ""⟩] (fun _ => []) ["B"] := by
  decide

/-- C5 (amended): plan generation is deterministic in its context, the
filesystem state, and the console input, and it consumes exactly one stdin
line per discovered build target, synchronously, before that target's
sub-plan is built: two runs whose first n console lines agree (n = number of
discovered targets) produce identical plans. -/
theorem project_plan_deterministic_given_console (context : RenameProject.PContext)
    (fs : Fs) (headersOf : String → List String) (stdin stdin' : List String)
    (h : stdin.take (RenameProject.find_target_file_names context.project_root fs).length =
        stdin'.take (RenameProject.find_target_file_names context.project_root fs).length) :
    RenameProject.generate_code_changeset context fs headersOf stdin =
      RenameProject.generate_code_changeset context fs headersOf stdin' := by
  unfold RenameProject.generate_code_changeset
  rw [targetSubplans_congr _ _ _ _ _ h]

/-- Witness for C5's amended theorem: one discovered target, console inputs
agreeing on their first line but not beyond it, identical plans. -/
theorem project_plan_deterministic_witness :
    RenameProject.generate_code_changeset ⟨[], "Start", "Finish"⟩
        [⟨["Source", "Start.Target.cs"], some ""⟩] (fun _ => []) ["Finish", "x"] =
      RenameProject.generate_code_changeset ⟨[], "Start", "Finish"⟩
        [⟨["Source", "Start.Target.cs"], some ""⟩] (fun _ => []) ["Finish", "y"] :=
  project_plan_deterministic_given_console ⟨[], "Start", "Finish"⟩
    [⟨["Source", "Start.Target.cs"], some ""⟩] (fun _ => []) ["Finish", "x"] ["Finish", "y"]
    (by decide)

theorem find?_filter_of_imp {α : Type} (p q : α → Bool) (l : List α)
    (h : ∀ x, p x = true → q x = true) : (l.filter q).find? p = l.find? p := by
  induction l with
  | nil => rfl
  | cons a l ih =>
    by_cases hq : q a = true
    · rw [List.filter_cons_of_pos hq]
      cases hp : p a
      · rw [List.find?_cons_of_neg _ (by simp [hp]), List.find?_cons_of_neg _ (by simp [hp])]
        exact ih
      · rw [List.find?_cons_of_pos _ hp, List.find?_cons_of_pos _ hp]
    · have hq' : q a = false := by
        cases hqa : q a
        · rfl
        · exact absurd hqa hq
      have hp : p a = false := by
        cases hpa : p a
        · rfl
        · rw [h a hpa] at hq'
          exact Bool.noConfusion hq'
      rw [List.filter_cons_of_neg (by simp [hq']), List.find?_cons_of_neg _ (by simp [hp])]
      exact ih

theorem filter_filter_of_imp {α : Type} (p q : α → Bool) (l : List α)
    (h : ∀ x, p x = true → q x = true) : (l.filter q).filter p = l.filter p := by
  induction l with
  | nil => rfl
  | cons a l ih =>
    by_cases hq : q a = true
    · rw [List.filter_cons_of_pos hq]
      cases hp : p a
      · rw [List.filter_cons_of_neg (by simp [hp]), List.filter_cons_of_neg (by simp [hp])]
        exact ih
      · rw [List.filter_cons_of_pos hp, List.filter_cons_of_pos hp, ih]
    · have hq' : q a = false := by
        cases hqa : q a
        · rfl
        · exact absurd hqa hq
      have hp : p a = false := by
        cases hpa : p a
        · rfl
        · rw [h a hpa] at hq'
          exact Bool.noConfusion hq'
      rw [List.filter_cons_of_neg (by simp [hq']), List.filter_cons_of_neg (by simp [hp])]
      exact ih

/-- C8: during content-predicate discovery — finding the module
implementation file and finding the files containing the export-token macro —
a file whose content cannot be read (modelled by `content = none`) is treated
as a non-match and skipped silently, for every filesystem state: both
discovery results are unchanged when all unreadable files are removed from
the filesystem, and both discovery functions are total (they return plain
values, never an error). -/
theorem discovery_skips_unreadable (mod_root : FsPath) (mod_name : String) (fs : Fs) :
    RenameModule.find_mod_implementation mod_root
        (fs.filter (fun f => f.content.isSome)) =
      RenameModule.find_mod_implementation mod_root fs ∧
    RenameModule.get_files_including_api_files mod_root mod_name
        (fs.filter (fun f => f.content.isSome)) =
      RenameModule.get_files_including_api_files mod_root mod_name fs := by
  constructor
  · unfold RenameModule.find_mod_implementation walkFiles
    rw [List.filter_comm]
    have himp : ∀ x : FsFile,
        (isCppFile x.path &&
          (match x.content with
           | some c => containsChars (("_MODULE").data) c.data
           | none => false)) = true → x.content.isSome = true := by
      intro x hx
      rw [Bool.and_eq_true] at hx
      cases hc : x.content with
      | none => rw [hc] at hx; exact absurd hx.2 (by simp)
      | some s => simp [hc]
    rw [find?_filter_of_imp _ _ _ himp]
  · unfold RenameModule.get_files_including_api_files walkFiles
    rw [List.filter_comm (fun f => pathLe mod_root f.path) (fun f => f.content.isSome) fs]
    have himp : ∀ x : FsFile,
        (match x.content with
         | some c => containsChars ((strUpper mod_name).data ++ ("_API").data) c.data
         | none => false) = true → x.content.isSome = true := by
      intro x hx
      cases hc : x.content with
      | none => rw [hc] at hx; exact Bool.noConfusion hx
      | some s => simp [hc]
    rw [filter_filter_of_imp _ _ _ himp]

theorem filter_isRenameC_map_replace {α : Type} (f : α → Change) (l : List α)
    (h : ∀ x, isRenameC (f x) = false) : (l.map f).filter isRenameC = [] := by
  induction l with
  | nil => rfl
  | cons a l ih =>
    rw [List.map_cons, List.filter_cons_of_neg (by simp [h a]), ih]

/-- C3: for every (old, new) identity and every discovery outcome for which
module-rename generation succeeds, the plan's `RenameFile` changes are
exactly two — the move of the module build-descriptor file (old.Build.cs to
new.Build.cs under the module root) and the move of the module source
subfolder to its sibling named after the new name — in this order, and every
other change of the plan is a content rewrite (`ReplaceInFile`) or an
ini-entry change. -/
theorem module_plan_renames (context : RenameModule.MContext) (fs : Fs)
    (plan : List Change)
    (hGen : RenameModule.generate_changeset context fs = some plan) :
    plan.filter isRenameC =
      [RenameModule.rename_build_file context.target_module.root
         context.target_module.name context.target_name,
       RenameModule.rename_source_subfolder context.target_module.root
         context.target_name] ∧
    ∀ c ∈ plan, isRenameC c = false → (isReplaceC c = true ∨ isIniC c = true) := by
  cases hmi : RenameModule.mImplChanges context.target_module.root context.target_name fs with
  | none =>
    rw [RenameModule.generate_changeset, hmi] at hGen
    exact absurd hGen (by simp)
  | some seg =>
    rw [RenameModule.generate_changeset, hmi] at hGen
    simp only [Option.some.injEq] at hGen
    subst hGen
    constructor
    · have hseg : seg.filter isRenameC = [] := by
        rcases mImplChanges_shape hmi with h1 | ⟨q, pat, rep, -, h1⟩ <;> subst h1
        · rfl
        · rfl
      have hmap1 : ((RenameModule.get_files_including_api_files context.target_module.root
          context.target_module.name fs).map (fun header =>
            RenameModule.replace_api_macro_in_header_file context.target_module.root header
              context.target_module.name context.target_name)).filter isRenameC = [] :=
        filter_isRenameC_map_replace _ _ (fun x => rfl)
      have hmap2 : ((RenameModule.find_target_file_names context.project_root fs).map
          (fun target_name =>
            RenameModule.replace_mod_reference_in_target
              (context.project_root ++ ["Source", withExt target_name ("Target.cs")])
              context.target_module.name context.target_name)).filter isRenameC = [] :=
        filter_isRenameC_map_replace _ _ (fun x => rfl)
      simp only [List.filter_append, hseg, hmap1, hmap2, List.append_nil, List.nil_append]
      rfl
    · intro c _ hc
      cases c with
      | RenameFile a b => simp [isRenameC] at hc
      | ReplaceInFile a b d => exact Or.inl rfl
      | AppendIniEntry a b d e => exact Or.inr rfl
      | SetIniEntry a b d e => exact Or.inr rfl

/-- Witness for C3: an empty filesystem (no implementation file, no
export-token files, no targets) — generation succeeds and the plan's renames
are exactly the build-file move and the subfolder move. -/
theorem module_plan_renames_witness :
    ([RenameModule.rename_build_class ["Source", "Start"] ("Start") ("Finish"),
      RenameModule.rename_build_file ["Source", "Start"] ("Start") ("Finish"),
      RenameModule.rename_source_subfolder ["Source", "Start"] ("Finish"),
      RenameModule.replace_mod_reference_in_project_descriptor [] ("Proj") ("Start")
        ("Finish"),
      RenameModule.update_existing_redirects [] ("Start") ("Finish"),
      RenameModule.append_mod_redirect [] ("Start") ("Finish")].filter isRenameC =
      [RenameModule.rename_build_file ["Source", "Start"] ("Start") ("Finish"),
       RenameModule.rename_source_subfolder ["Source", "Start"] ("Finish")]) ∧
    ∀ c ∈ [RenameModule.rename_build_class ["Source", "Start"] ("Start") ("Finish"),
      RenameModule.rename_build_file ["Source", "Start"] ("Start") ("Finish"),
      RenameModule.rename_source_subfolder ["Source", "Start"] ("Finish"),
      RenameModule.replace_mod_reference_in_project_descriptor [] ("Proj") ("Start")
        ("Finish"),
      RenameModule.update_existing_redirects [] ("Start") ("Finish"),
      RenameModule.append_mod_redirect [] ("Start") ("Finish")],
      isRenameC c = false → (isReplaceC c = true ∨ isIniC c = true) :=
  module_plan_renames ⟨[], "Proj", ⟨["Source", "Start"], "Start"⟩, "Finish"⟩ [] _ (by decide)

/-- C2 (counterexample): the ordering invariant fails as stated.  On a
filesystem where the module build-descriptor file `Start.Build.cs` itself
contains the export token `START_API`, export-token discovery returns the
build file, and the generated module-rename plan edits
`Source/Start/Start.Build.cs` (at index 2) after having renamed that very
file (at index 1): an edit's index exceeds the index of a rename of its
file. -/
theorem module_plan_edit_after_rename :
    ¬ editBeforeAffectingRename
        ((RenameModule.generate_changeset ⟨[], "Proj", ⟨["Source", "Start"], "Start"⟩, "Finish"⟩
          [⟨["Source", "Start", "Start.Build.cs"], some "// START_API"⟩]).getD []) := by
  intro h
  have h2 := h ⟨2, by decide⟩ ⟨1, by decide⟩ ["Source", "Start", "Start.Build.cs"]
    ("START_API") ("FINISH_API") ["Source", "Start", "Start.Build.cs"]
    ["Source", "Start", "Finish.Build.cs"] (by decide) (by decide) (by decide)
  exact absurd h2 (by decide)

/-- C2 (amended): in every plan produced by the module-rename or
project-rename generator, every file edited by a `ReplaceInFile` and renamed
— directly or through an ancestor directory — has the edit's index strictly
below the rename's index, provided discovery produces no path collisions:
for the module flow, the module root follows the standard layout
`<project>/Source/<module>`, the module name has no dot, and no discovered
export-token file or implementation file is at or under the build-descriptor
path; for the project flow, the discovered targets are duplicate-free, none
ends in ".Target.cs", none equals another target plus "Editor", and no
discovered header is named `<target>.Build.cs`. -/
theorem edits_precede_renames (mcontext : RenameModule.MContext) (mfs : Fs)
    (pcontext : RenameProject.PContext) (pfs : Fs) (headersOf : String → List String)
    (stdin : List String) :
    ((mcontext.target_module.root =
        mcontext.project_root ++ ["Source", mcontext.target_module.name]) →
      (∀ c ∈ mcontext.target_module.name.data, c ≠ '.') →
      (∀ h ∈ RenameModule.get_files_including_api_files mcontext.target_module.root
          mcontext.target_module.name mfs,
        pathLe [withExt mcontext.target_module.name ("Build.cs")] h = false) →
      (∀ q, RenameModule.find_mod_implementation mcontext.target_module.root mfs = some q →
        pathLe (mcontext.target_module.root ++
          [withExt mcontext.target_module.name ("Build.cs")]) q = false) →
      ∀ plan, RenameModule.generate_changeset mcontext mfs = some plan →
        editBeforeAffectingRename plan) ∧
    ((RenameProject.find_target_file_names pcontext.project_root pfs).Nodup →
      (∀ tn ∈ RenameProject.find_target_file_names pcontext.project_root pfs,
        List.isSuffixOf ((".Target.cs").data) tn.data = false) →
      (∀ tn ∈ RenameProject.find_target_file_names pcontext.project_root pfs,
        ∀ tm ∈ RenameProject.find_target_file_names pcontext.project_root pfs,
          tn ≠ tm ++ "Editor") →
      (∀ tn ∈ RenameProject.find_target_file_names pcontext.project_root pfs,
        ∀ h ∈ headersOf tn, h ≠ tn ++ ".Build.cs") →
      editBeforeAffectingRename
        (RenameProject.generate_code_changeset pcontext pfs headersOf stdin)) := by
  constructor
  · intro hRoot hDot hHdr hImpl plan hGen
    apply orderedPlan_implies_editBefore
    cases hmi : RenameModule.mImplChanges mcontext.target_module.root mcontext.target_name
        mfs with
    | none =>
      rw [RenameModule.generate_changeset, hmi] at hGen
      exact absurd hGen (by simp)
    | some seg =>
      rw [RenameModule.generate_changeset, hmi] at hGen
      simp only [Option.some.injEq] at hGen
      subst hGen
      rw [hRoot] at hHdr ⊢
      refine orderedPlan_module_core mcontext.project_root mcontext.project_name
        mcontext.target_module.name mcontext.target_name seg _ _ ?_ ?_ hHdr hDot
      · rcases mImplChanges_shape hmi with h1 | ⟨q, pat, rep, -, h1⟩ <;> subst h1
        · intro c hc
          exact absurd hc (by simp)
        · intro c hc
          simp at hc
          rw [hc]
          rfl
      · rcases mImplChanges_shape hmi with h1 | ⟨q, pat, rep, hfind, h1⟩ <;> subst h1
        · intro p pat2 rep2 hp
          exact absurd hp (by simp)
        · intro p pat2 rep2 hp
          simp at hp
          obtain ⟨hp1, -, -⟩ := hp
          have hq := hImpl q hfind
          rw [hRoot, List.append_assoc] at hq
          exact hp1 ▸ hq
  · intro hNodup hTcs hEd hHdrP
    apply orderedPlan_implies_editBefore
    unfold RenameProject.generate_code_changeset
    apply orderedPlan_append
    · exact orderedPlan_subplans _ _ _ _ hNodup hTcs hEd hHdrP
    · refine orderedPlan_cons_of_not_rename rfl ?_
      refine orderedPlan_cons_of_not_rename rfl ?_
      refine orderedPlan_cons_of_not_rename rfl ?_
      refine orderedPlan_cons_of_not_rename rfl ?_
      refine orderedPlan_cons_of_not_rename rfl ?_
      refine orderedPlan_cons_rename ?_ ?_
      · intro p pat rep hm
        exact absurd hm (by simp [RenameProject.rename_project_root])
      refine orderedPlan_cons_rename ?_ orderedPlan_nil
      intro p pat rep hm
      exact absurd hm (by simp)
    · intro f t hf p pat rep hp
      obtain ⟨tn, htn, hshape⟩ := rename_mem_subplans hf
      have hpm : p = pcontext.project_root ++ ["Config", "DefaultEngine.ini"] ∨
          p = pcontext.project_root ++ [withExt pcontext.project_name ("uproject")] := by
        simp [RenameProject.update_redirects_in_engine_config,
          RenameProject.append_redirect_to_engine_config,
          RenameProject.add_game_name_to_engine_config,
          RenameProject.add_project_name_to_game_config,
          RenameProject.replace_in_project_descriptor,
          RenameProject.rename_project_descriptor,
          RenameProject.rename_project_root] at hp
        rcases hp with ⟨h1, -⟩ | ⟨h1, -⟩
        · exact Or.inl h1
        · exact Or.inr h1
      rcases hshape with h1 | h1 | ⟨y, h1⟩ | h1 <;> subst h1 <;>
        rcases hpm with h2 | h2 <;> subst h2 <;> rw [pathLe_append_both]
      · exact pathLe_head_ne_false (by decide) _ _
      · exact pathLe_long_single_false _ _ _ _
      · exact pathLe_head_ne_false (by decide) _ _
      · exact pathLe_long_single_false _ _ _ _
      · exact pathLe_head_ne_false (by decide) _ _
      · exact pathLe_long_single_false _ _ _ _
      · exact pathLe_head_ne_false (by decide) _ _
      · exact pathLe_long_single_false _ _ _ _

/-- Witness for C2's amended theorem: a module rename over an empty
filesystem and a project rename with one discovered target "Start". -/
theorem edits_precede_renames_witness :
    editBeforeAffectingRename
      [RenameModule.rename_build_class ["Source", "Start"] ("Start") ("Finish"),
       RenameModule.rename_build_file ["Source", "Start"] ("Start") ("Finish"),
       RenameModule.rename_source_subfolder ["Source", "Start"] ("Finish"),
       RenameModule.replace_mod_reference_in_project_descriptor [] ("Proj") ("Start")
         ("Finish"),
       RenameModule.update_existing_redirects [] ("Start") ("Finish"),
       RenameModule.append_mod_redirect [] ("Start") ("Finish")] ∧
    editBeforeAffectingRename
      (RenameProject.generate_code_changeset ⟨[], "Start", "Finish"⟩
        [⟨["Source", "Start.Target.cs"], some ""⟩]
        (fun _ => ["StartGameModeBase.h"]) ["Finish"]) :=
  ⟨(edits_precede_renames ⟨[], "Proj", ⟨["Source", "Start"], "Start"⟩, "Finish"⟩ []
      ⟨[], "Start", "Finish"⟩ [⟨["Source", "Start.Target.cs"], some ""⟩]
      (fun _ => ["StartGameModeBase.h"]) ["Finish"]).1 (by decide) (by decide) (by decide)
      (fun q hq => Option.noConfusion hq) _ (by decide),
   (edits_precede_renames ⟨[], "Proj", ⟨["Source", "Start"], "Start"⟩, "Finish"⟩ []
      ⟨[], "Start", "Finish"⟩ [⟨["Source", "Start.Target.cs"], some ""⟩]
      (fun _ => ["StartGameModeBase.h"]) ["Finish"]).2 (by decide) (by decide) (by decide)
      (by decide)⟩

theorem containsChars_of_isPrefixOf {tok s : List Char}
    (h : List.isPrefixOf tok s = true) : containsChars tok s = true := by
  cases s with
  | nil => exact h
  | cons c cs => simp [containsChars, h]

theorem containsChars_of_shape (tok : List Char) :
    ∀ (x y s : List Char), s = x ++ (tok ++ y) → containsChars tok s = true := by
  intro x
  induction x with
  | nil =>
    intro y s hs
    subst hs
    exact containsChars_of_isPrefixOf (isPrefixOf_self_append tok y)
  | cons a x ih =>
    intro y s hs
    subst hs
    rw [List.cons_append, containsChars]
    rw [ih y (x ++ (tok ++ y)) rfl]
    simp

theorem matchImplAt_some_structure {s : List Char} {r : String × String}
    (h : RenameModule.matchImplAt s = some r) :
    ∃ r2 : List Char,
      s = ("IMPLEMENT_GAME").data ++ ((("_MODULE").data) ++ ('(' :: r2)) ∨
      s = ("IMPLEMENT_PRIMARY_GAME").data ++ ((("_MODULE").data) ++ ('(' :: r2)) ∨
      s = ("IMPLEMENT").data ++ ((("_MODULE").data) ++ ('(' :: r2)) := by
  unfold RenameModule.matchImplAt at h
  split at h
  · exact absurd h (by simp)
  · rename_i rest h1
    have hs := stripPre_eq_some.mp h1
    split at h
    · rename_i r2 h2
      have hr := stripPre_eq_some.mp h2
      refine ⟨r2, Or.inl ?_⟩
      rw [hs, hr]
      rfl
    · split at h
      · rename_i r2 h3
        have hr := stripPre_eq_some.mp h3
        refine ⟨r2, Or.inr (Or.inl ?_)⟩
        rw [hs, hr]
        rfl
      · split at h
        · rename_i r2 h4
          have hr := stripPre_eq_some.mp h4
          refine ⟨r2, Or.inr (Or.inr ?_)⟩
          rw [hs, hr]
          rfl
        · exact absurd h (by simp)

theorem firstImplCapture_some_suffix :
    ∀ {c : List Char} {r : String × String}, RenameModule.firstImplCapture c = some r →
      ∃ w s, c = w ++ s ∧ RenameModule.matchImplAt s = some r := by
  intro c
  induction c with
  | nil =>
    intro r h
    exact absurd h (by simp [RenameModule.firstImplCapture])
  | cons a cs ih =>
    intro r h
    rw [RenameModule.firstImplCapture] at h
    cases hm : RenameModule.matchImplAt (a :: cs) with
    | some r2 =>
      rw [hm] at h
      simp at h
      exact ⟨[], a :: cs, rfl, by rw [hm, h]⟩
    | none =>
      rw [hm] at h
      obtain ⟨w, s, hc, hms⟩ := ih h
      exact ⟨a :: w, s, by rw [List.cons_append, ← hc], hms⟩

/-- C10: the discovery predicate of the module implementation file (content
contains the substring `_MODULE`) is strictly weaker than the macro pattern
the rewrite assumes.  On a filesystem whose first `.cpp` file contains
`_MODULE` without an actual `IMPLEMENT_(GAME_|PRIMARY_GAME_)?MODULE(...)`
invocation, the regex capture fails and module-rename plan generation panics
(the `unwrap` on the captures, modelled by the generator returning `none`)
rather than skipping the file or returning a plan; conversely, every content
on which the capture succeeds does contain `_MODULE`. -/
theorem impl_discovery_weaker_than_rewrite :
    (RenameModule.generate_changeset ⟨[], "Proj", ⟨["Source", "Start"], "Start"⟩, "Finish"⟩
        [⟨["Source", "Start", "A.cpp"], some "// _MODULE"⟩] = none ∧
      containsChars (("_MODULE").data) (("// _MODULE").data) = true ∧
      RenameModule.firstImplCapture (("// _MODULE").data) = none) ∧
    ∀ (c : List Char) (r : String × String), RenameModule.firstImplCapture c = some r →
      containsChars (("_MODULE").data) c = true := by
  constructor
  · exact ⟨by decide, by decide, by decide⟩
  · intro c r h
    obtain ⟨w, s, hc, hms⟩ := firstImplCapture_some_suffix h
    obtain ⟨r2, h3 | h3 | h3⟩ := matchImplAt_some_structure hms <;> subst h3 <;>
      rw [hc] <;> rw [← List.append_assoc] <;>
      exact containsChars_of_shape _ _ _ _ rfl

/-- Witness for C10's universal part: a content carrying a real
`IMPLEMENT_MODULE` invocation both captures and contains the token. -/
theorem impl_discovery_weaker_witness :
    containsChars (("_MODULE").data) (("IMPLEMENT_MODULE(Game, Start);").data) = true :=
  impl_discovery_weaker_than_rewrite.2 (("IMPLEMENT_MODULE(Game, Start);").data)
    ("IMPLEMENT_MODULE", "Game") (by decide)

theorem extSplit_append_bcs (x : List Char) :
    extSplit (x ++ ((".Build.cs").data)) = some (("cs").data) := by
  unfold extSplit
  rw [List.reverse_append]
  rfl

theorem extensionOf_withExt_bcs (nm : String) :
    extensionOf (withExt nm ("Build.cs")) = some ("cs") := by
  unfold extensionOf withExt
  cases h : extSplit nm.data with
  | none =>
    show (extSplit (nm.data ++ ((".Build.cs").data))).map String.mk = some ("cs")
    rw [extSplit_append_bcs]
    rfl
  | some e =>
    show (extSplit ((nm.data.take (nm.data.length - e.length - 1)) ++
        ((".Build.cs").data))).map String.mk = some ("cs")
    rw [extSplit_append_bcs]
    rfl

theorem isCppFile_concat_bcs (q : FsPath) (nm : String) :
    isCppFile (q ++ [withExt nm ("Build.cs")]) = false := by
  unfold isCppFile
  rw [List.getLast?_concat]
  show decide (extensionOf (withExt nm ("Build.cs")) = some ("cpp")) = false
  rw [extensionOf_withExt_bcs]
  decide

theorem extensionOf_no_dot {s : String} (h : ∀ c ∈ s.data, c ≠ '.') :
    extensionOf s = none := by
  unfold extensionOf extSplit
  have hd : (s.data.reverse).dropWhile (fun c => c ≠ '.') = [] := by
    rw [List.dropWhile_eq_nil_iff]
    intro x hx
    simp at hx ⊢
    exact h x hx
  rw [hd]
  rfl

theorem find_mod_implementation_shape {mr : FsPath} {fs : Fs} {p : FsPath}
    (h : RenameModule.find_mod_implementation mr fs = some p) :
    isCppFile p = true ∧ pathLe mr p = true := by
  unfold RenameModule.find_mod_implementation at h
  rw [Option.map_eq_some'] at h
  obtain ⟨f0, hfind, hpath⟩ := h
  constructor
  · have hp := List.find?_some hfind
    rw [Bool.and_eq_true] at hp
    rw [← hpath]
    exact hp.1
  · have hmem := List.mem_of_find?_eq_some hfind
    unfold walkFiles at hmem
    rw [List.mem_filter] at hmem
    rw [← hpath]
    exact hmem.2

theorem ne_of_length_ne {α : Type} {a b : List α} (h : a.length ≠ b.length) : a ≠ b :=
  fun he => h (he ▸ rfl)

theorem str_append_ne_of_suffix {s t : String}
    (h : List.isSuffixOf s.data t.data = false) (a : String) : a ++ s ≠ t := by
  intro he
  rw [← he, strData_append, isSuffixOf_append_self] at h
  exact Bool.noConfusion h

/-- C6 (counterexample): when the discovered implementation `.cpp` file also
contains the export token, the plan carries two `ReplaceInFile` changes for
that same file — the implementation-macro rewrite and the export-token
rewrite — refuting "exactly one `ReplaceInFile` change for it". -/
theorem module_impl_edit_not_unique :
    Option.map (fun plan => (editsOnPath plan ["Source", "Start", "Start.cpp"]).length)
      (RenameModule.generate_changeset ⟨[], "Proj", ⟨["Source", "Start"], "Start"⟩, "Finish"⟩
        [⟨["Source", "Start", "Start.cpp"],
          some "IMPLEMENT_MODULE(Game, Start) // START_API"⟩]) = some 2 := by
  decide

/-- C6 (amended): under the standard layout (module root is
`<project>/Source/<module>`, dot-free module name), and provided the
discovered implementation file is not also among the discovered export-token
files, the module-rename plan contains exactly one `ReplaceInFile` change
whose target is the implementation file, and its replacement is chosen by
the macro form captured in that file's content — the primary-game-module
form gets an extra quoted localized-name argument equal to the new name, any
other form gets only the implementation and new-name arguments.  If no
implementation file is discovered, that change is omitted (no change of the
plan carries the module-init rewrite pattern) and generation still
succeeds. -/
theorem module_impl_edit (context : RenameModule.MContext) (fs : Fs)
    (hRoot : context.target_module.root =
      context.project_root ++ ["Source", context.target_module.name])
    (hDot : ∀ ch ∈ context.target_module.name.data, ch ≠ '.') :
    (∀ plan implPath c0,
      RenameModule.find_mod_implementation context.target_module.root fs = some implPath →
      RenameModule.update_mod_implementation implPath (contentOf fs implPath)
        context.target_name = some c0 →
      (∀ h ∈ RenameModule.get_files_including_api_files context.target_module.root
          context.target_module.name fs, context.target_module.root ++ h ≠ implPath) →
      RenameModule.generate_changeset context fs = some plan →
      editsOnPath plan implPath = [c0] ∧
      (∀ s mi, contentOf fs implPath = some s →
        RenameModule.firstImplCapture s.data = some mi →
        c0 = Change.ReplaceInFile implPath ("_MODULE\\(.+\\)")
          (if mi.1 = "IMPLEMENT_PRIMARY_GAME_MODULE" then
            "_MODULE(" ++ mi.2 ++ ", " ++ context.target_name ++ ", \"" ++
              context.target_name ++ "\")"
          else "_MODULE(" ++ mi.2 ++ ", " ++ context.target_name ++ ")"))) ∧
    (RenameModule.find_mod_implementation context.target_module.root fs = none →
      ∃ plan, RenameModule.generate_changeset context fs = some plan ∧
        ∀ q pat rep, Change.ReplaceInFile q pat rep ∈ plan →
          pat ≠ ("_MODULE\\(.+\\)")) := by
  constructor
  · intro plan implPath c0 hFind hUpd hNoApi hGen
    have hshape := find_mod_implementation_shape hFind
    obtain ⟨r0, hr0⟩ := eq_append_of_pathLe hshape.2
    have hr0ne : r0 ≠ [] := by
      intro h0
      rw [h0, List.append_nil] at hr0
      have hcpp := hshape.1
      rw [hr0, hRoot] at hcpp
      have hlast : (context.project_root ++
          ["Source", context.target_module.name]).getLast? =
          some context.target_module.name := by
        rw [show context.project_root ++ ["Source", context.target_module.name] =
            (context.project_root ++ ["Source"]) ++ [context.target_module.name] from
          (List.append_assoc context.project_root ["Source"]
            [context.target_module.name]).symm]
        exact List.getLast?_concat _
      unfold isCppFile at hcpp
      rw [hlast] at hcpp
      rw [show (match some context.target_module.name with
          | some nm => decide (extensionOf nm = some "cpp")
          | none => false) =
          decide (extensionOf context.target_module.name = some "cpp") from rfl] at hcpp
      rw [extensionOf_no_dot hDot] at hcpp
      exact Bool.noConfusion hcpp
    have hr0pos : 0 < r0.length := List.length_pos_iff_ne_nil.mpr hr0ne
    have hlen : implPath.length = context.project_root.length + (2 + r0.length) := by
      rw [hr0, hRoot]
      simp only [List.append_assoc, List.length_append, List.length_cons, List.length_nil]
    have hne2 : ∀ a b : String, context.project_root ++ [a, b] ≠ implPath := by
      intro a b he
      have hl2 : (context.project_root ++ [a, b]).length =
          context.project_root.length + 2 := by simp
      rw [he, hlen] at hl2
      omega
    have hne1 : ∀ a : String, context.project_root ++ [a] ≠ implPath := by
      intro a he
      have hl2 : (context.project_root ++ [a]).length =
          context.project_root.length + 1 := by simp
      rw [he, hlen] at hl2
      omega
    have hne_build : context.target_module.root ++
        [withExt context.target_module.name ("Build.cs")] ≠ implPath := by
      intro he
      have h1 := hshape.1
      rw [← he, isCppFile_concat_bcs] at h1
      exact Bool.noConfusion h1
    obtain ⟨pat0, rep0, hc0⟩ := update_mod_implementation_shape hUpd
    have hmi2 : RenameModule.mImplChanges context.target_module.root context.target_name fs =
        some [c0] := by
      unfold RenameModule.mImplChanges
      rw [hFind]
      show (RenameModule.update_mod_implementation implPath (contentOf fs implPath)
        context.target_name).map (fun c => [c]) = some [c0]
      rw [hUpd]
      rfl
    rw [RenameModule.generate_changeset, hmi2] at hGen
    simp only [Option.some.injEq] at hGen
    subst hGen
    constructor
    · unfold editsOnPath
      simp only [List.filter_append]
      have hA : [RenameModule.rename_build_class context.target_module.root
            context.target_module.name context.target_name,
          RenameModule.rename_build_file context.target_module.root
            context.target_module.name context.target_name].filter (fun c =>
            match c with
            | Change.ReplaceInFile q _ _ => q = implPath
            | _ => false) = [] := by
        rw [List.filter_cons_of_neg (by simp [RenameModule.rename_build_class, hne_build]),
          List.filter_cons_of_neg (by simp [RenameModule.rename_build_file])]
        rfl
      have hB : [c0].filter (fun c =>
            match c with
            | Change.ReplaceInFile q _ _ => q = implPath
            | _ => false) = [c0] := by
        rw [hc0]
        simp
      have hC : ((RenameModule.get_files_including_api_files context.target_module.root
          context.target_module.name fs).map (fun header =>
            RenameModule.replace_api_macro_in_header_file context.target_module.root header
              context.target_module.name context.target_name)).filter (fun c =>
            match c with
            | Change.ReplaceInFile q _ _ => q = implPath
            | _ => false) = [] := by
        apply List.filter_eq_nil_iff.mpr
        intro c hc
        simp only [List.mem_map] at hc
        obtain ⟨y, hy, hyc⟩ := hc
        rw [← hyc]
        simp [RenameModule.replace_api_macro_in_header_file, hNoApi y hy]
      have hD : [RenameModule.rename_source_subfolder context.target_module.root
          context.target_name].filter (fun c =>
            match c with
            | Change.ReplaceInFile q _ _ => q = implPath
            | _ => false) = [] := by
        rfl
      have hE : ((RenameModule.find_target_file_names context.project_root fs).map
          (fun target_name =>
            RenameModule.replace_mod_reference_in_target
              (context.project_root ++ ["Source", withExt target_name ("Target.cs")])
              context.target_module.name context.target_name)).filter (fun c =>
            match c with
            | Change.ReplaceInFile q _ _ => q = implPath
            | _ => false) = [] := by
        apply List.filter_eq_nil_iff.mpr
        intro c hc
        simp only [List.mem_map] at hc
        obtain ⟨y, -, hyc⟩ := hc
        rw [← hyc]
        simp [RenameModule.replace_mod_reference_in_target, hne2]
      have hF : [RenameModule.replace_mod_reference_in_project_descriptor
            context.project_root context.project_name context.target_module.name
            context.target_name,
          RenameModule.update_existing_redirects context.project_root
            context.target_module.name context.target_name,
          RenameModule.append_mod_redirect context.project_root context.target_module.name
            context.target_name].filter (fun c =>
            match c with
            | Change.ReplaceInFile q _ _ => q = implPath
            | _ => false) = [] := by
        rw [List.filter_cons_of_neg
            (by simp [RenameModule.replace_mod_reference_in_project_descriptor, hne1]),
          List.filter_cons_of_neg
            (by simp [RenameModule.update_existing_redirects, hne2])]
        rfl
      rw [hA, hB, hC, hD, hE, hF]
      rfl
    · intro s mi hs hcap
      rw [hs] at hUpd
      simp only [RenameModule.update_mod_implementation, hcap, Option.map_some',
        Option.some.injEq] at hUpd
      exact hUpd.symm
  · intro hFindNone
    have hmi2 : RenameModule.mImplChanges context.target_module.root context.target_name fs =
        some [] := by
      unfold RenameModule.mImplChanges
      rw [hFindNone]
    refine ⟨_, by rw [RenameModule.generate_changeset, hmi2], ?_⟩
    intro q pat rep hq
    simp only [RenameModule.rename_build_class, RenameModule.rename_build_file,
      RenameModule.replace_api_macro_in_header_file, RenameModule.rename_source_subfolder,
      RenameModule.replace_mod_reference_in_target,
      RenameModule.replace_mod_reference_in_project_descriptor,
      RenameModule.update_existing_redirects, RenameModule.append_mod_redirect,
      List.mem_append, List.mem_cons, List.mem_map, List.not_mem_nil, or_false,
      false_or, or_assoc] at hq
    rcases hq with he | he | ⟨y, hy, he⟩ | he | ⟨tn, htn, he⟩ | he | he | he
    · injection he with h1 h2 h3
      rw [h2]
      intro heq
      exact hDot '.' (by rw [heq]; decide) rfl
    · exact absurd he (by simp)
    · injection he with h1 h2 h3
      rw [← h2]
      exact str_append_ne_of_suffix (by decide) _
    · exact absurd he (by simp)
    · injection he with h1 h2 h3
      rw [← h2]
      exact str_append_ne_of_suffix (by decide) _
    · injection he with h1 h2 h3
      rw [h2]
      exact str_append_ne_of_suffix (by decide) _
    · injection he with h1 h2 h3
      rw [h2]
      exact str_append_ne_of_suffix (by decide) _
    · exact absurd he (by simp)

/-- Witness for C6's amended theorem: a module whose implementation file
carries the primary-game-module form (and no export-token files), and a
module with no implementation file at all. -/
theorem module_impl_edit_witness :
    (editsOnPath
        [RenameModule.rename_build_class ["Source", "Start"] ("Start") ("Finish"),
         RenameModule.rename_build_file ["Source", "Start"] ("Start") ("Finish"),
         Change.ReplaceInFile ["Source", "Start", "Start.cpp"] ("_MODULE\\(.+\\)")
           ("_MODULE(FDefaultGameModuleImpl, Finish, \"Finish\")"),
         RenameModule.rename_source_subfolder ["Source", "Start"] ("Finish"),
         RenameModule.replace_mod_reference_in_project_descriptor [] ("Proj") ("Start")
           ("Finish"),
         RenameModule.update_existing_redirects [] ("Start") ("Finish"),
         RenameModule.append_mod_redirect [] ("Start") ("Finish")]
        ["Source", "Start", "Start.cpp"] =
      [Change.ReplaceInFile ["Source", "Start", "Start.cpp"] ("_MODULE\\(.+\\)")
        ("_MODULE(FDefaultGameModuleImpl, Finish, \"Finish\")")] ∧
      (∀ s mi,
        contentOf
          [⟨["Source", "Start", "Start.cpp"],
            some "IMPLEMENT_PRIMARY_GAME_MODULE(FDefaultGameModuleImpl, Start, \"Start\");"⟩]
          ["Source", "Start", "Start.cpp"] = some s →
        RenameModule.firstImplCapture s.data = some mi →
        Change.ReplaceInFile ["Source", "Start", "Start.cpp"] ("_MODULE\\(.+\\)")
            ("_MODULE(FDefaultGameModuleImpl, Finish, \"Finish\")") =
          Change.ReplaceInFile ["Source", "Start", "Start.cpp"] ("_MODULE\\(.+\\)")
            (if mi.1 = "IMPLEMENT_PRIMARY_GAME_MODULE" then
              "_MODULE(" ++ mi.2 ++ ", " ++ "Finish" ++ ", \"" ++ "Finish" ++ "\")"
            else "_MODULE(" ++ mi.2 ++ ", " ++ "Finish" ++ ")"))) ∧
    (∃ plan,
      RenameModule.generate_changeset ⟨[], "Proj", ⟨["Source", "Start"], "Start"⟩, "Finish"⟩
          [] = some plan ∧
      ∀ q pat rep, Change.ReplaceInFile q pat rep ∈ plan → pat ≠ ("_MODULE\\(.+\\)")) :=
  ⟨(module_impl_edit ⟨[], "Proj", ⟨["Source", "Start"], "Start"⟩, "Finish"⟩
      [⟨["Source", "Start", "Start.cpp"],
        some "IMPLEMENT_PRIMARY_GAME_MODULE(FDefaultGameModuleImpl, Start, \"Start\");"⟩]
      (by decide) (by decide)).1 _ ["Source", "Start", "Start.cpp"] _ (by decide) (by decide)
      (by decide) (by decide),
   (module_impl_edit ⟨[], "Proj", ⟨["Source", "Start"], "Start"⟩, "Finish"⟩ []
      (by decide) (by decide)).2 (by decide)⟩

theorem mrGo_nil (old_name new_name : List Char) :
    ∀ f, mrGo old_name new_name f [] = []
  | 0 => rfl
  | _ + 1 => rfl

theorem mrGo_cons_match {old_name new_name x rest : List Char} (c : Char) (cs : List Char)
    (f : Nat) (h : mrMatch old_name (c :: cs) = some (x, rest)) :
    mrGo old_name new_name (f + 1) (c :: cs) =
      mrRender x new_name ++ mrGo old_name new_name f rest := by
  simp only [mrGo, h]

theorem mrGo_cons_none {old_name new_name : List Char} (c : Char) (cs : List Char) (f : Nat)
    (h : mrMatch old_name (c :: cs) = none) :
    mrGo old_name new_name (f + 1) (c :: cs) = c :: mrGo old_name new_name f cs := by
  simp only [mrGo, h]

theorem mrGrab_cons_none {old_name acc : List Char} (c : Char) (cs : List Char)
    (hcn : c ≠ '\n') (h : mrClose old_name cs = none) :
    mrGrab old_name acc (c :: cs) = mrGrab old_name (acc ++ [c]) cs := by
  simp only [mrGrab, if_neg hcn, h]

theorem mrClose_closes (old_name tail0 : List Char) :
    mrClose old_name ('"' :: ',' :: ' ' :: (mrTail old_name ++ tail0)) = some tail0 := by
  show stripPre (mrTail old_name) (mrTail old_name ++ tail0) = some tail0
  exact stripPre_self _ _

theorem mrClose_head_ne {b : Char} (old_name rest : List Char) (h : b ≠ '"') :
    mrClose old_name (b :: rest) = none := by
  unfold mrClose
  rw [show stripPre (("\",").data) (b :: rest) = none from by
    simp [stripPre, show ('"' : Char) ≠ b from fun hh => h hh.symm]]

theorem mrGrab_closes (old_name : List Char) :
    ∀ (x acc tail0 : List Char), x ≠ [] → (∀ c ∈ x, c ≠ '"' ∧ c ≠ '\n') →
      mrGrab old_name acc (x ++ ('"' :: ',' :: ' ' :: (mrTail old_name ++ tail0))) =
        some (acc ++ x, tail0) := by
  intro x
  induction x with
  | nil => intro acc tail0 hne _; exact absurd rfl hne
  | cons a x ih =>
    intro acc tail0 _ hc
    have ha := hc a (by simp)
    cases x with
    | nil =>
      show mrGrab old_name acc
        (a :: ('"' :: ',' :: ' ' :: (mrTail old_name ++ tail0))) = some (acc ++ [a], tail0)
      simp only [mrGrab, if_neg ha.2, mrClose_closes]
    | cons b x' =>
      have hb := hc b (by simp)
      rw [show (a :: b :: x') ++ ('"' :: ',' :: ' ' :: (mrTail old_name ++ tail0)) =
        a :: ((b :: x') ++ ('"' :: ',' :: ' ' :: (mrTail old_name ++ tail0))) from rfl]
      rw [mrGrab_cons_none a ((b :: x') ++ ('"' :: ',' :: ' ' :: (mrTail old_name ++ tail0)))
        ha.2 (mrClose_head_ne old_name (x' ++ ('"' :: ',' :: ' ' :: (mrTail old_name ++ tail0)))
          hb.1)]
      rw [ih (acc ++ [a]) tail0 (by simp) (fun c hcc => hc c (by simp [hcc]))]
      simp

theorem mrMatch_canon (old_name x : List Char) (hx : x ≠ [])
    (hc : ∀ c ∈ x, c ≠ '"' ∧ c ≠ '\n') :
    mrMatch old_name
      ('(' :: ((("OldName=\"").data) ++
        (x ++ ('"' :: ',' :: ' ' :: (mrTail old_name ++ []))))) =
      some (x, []) := by
  unfold mrMatch
  rw [show stripPre (("(OldName=\"").data)
      ('(' :: ((("OldName=\"").data) ++
        (x ++ ('"' :: ',' :: ' ' :: (mrTail old_name ++ []))))) =
      some (x ++ ('"' :: ',' :: ' ' :: (mrTail old_name ++ []))) from
    stripPre_self (("(OldName=\"").data) (x ++ ('"' :: ',' :: ' ' :: (mrTail old_name ++ [])))]
  show mrGrab old_name []
    (x ++ ('"' :: ',' :: ' ' :: (mrTail old_name ++ []))) = some (x, [])
  rw [mrGrab_closes old_name x [] [] hx hc]
  rfl

theorem mrEntry_decomp (x old_name : List Char) :
    mrEntry x ((("/Script/").data) ++ old_name) =
      (("(OldName=\"").data) ++ (x ++ ('"' :: ',' :: ' ' :: (mrTail old_name ++ []))) := by
  unfold mrEntry mrTail
  simp only [List.append_assoc, List.append_nil]
  rfl

theorem mrRender_eq_entry (x new_name : List Char) :
    mrRender x new_name = mrEntry x ((("/Script/").data) ++ new_name) := by
  unfold mrRender mrEntry
  simp only [List.append_assoc]
  rfl

theorem mrReplaceAll_entry (old_name new_name : String) (x : List Char) (hx : x ≠ [])
    (hc : ∀ c ∈ x, c ≠ '"' ∧ c ≠ '\n') :
    mrReplaceAll old_name new_name (mrEntry x ((("/Script/").data) ++ old_name.data)) =
      mrEntry x ((("/Script/").data) ++ new_name.data) := by
  unfold mrReplaceAll
  have hdec : mrEntry x ((("/Script/").data) ++ old_name.data) =
      '(' :: ((("OldName=\"").data) ++
        (x ++ ('"' :: ',' :: ' ' :: (mrTail old_name.data ++ [])))) := by
    rw [mrEntry_decomp]; rfl
  rw [hdec, List.length_cons]
  rw [mrGo_cons_match _ _ _ (mrMatch_canon old_name.data x hx hc)]
  rw [mrGo_nil, List.append_nil]
  exact mrRender_eq_entry x new_name.data

theorem containsChars_append_right (tok u v : List Char)
    (h : containsChars tok v = true) : containsChars tok (u ++ v) = true := by
  induction u with
  | nil => exact h
  | cons a u ih =>
    rw [List.cons_append, containsChars, ih]
    simp

theorem mrClose_some_infix {old_name v r : List Char} (h : mrClose old_name v = some r) :
    ∃ u w, v = u ++ (mrTail old_name ++ w) := by
  unfold mrClose at h
  cases h1 : stripPre (("\",").data) v with
  | none => rw [h1] at h; exact absurd h (by simp)
  | some r1 =>
    rw [h1] at h
    have hv := stripPre_eq_some.mp h1
    have hr1 := stripPre_eq_some.mp h
    refine ⟨(("\",").data) ++ r1.takeWhile isWsChar, r, ?_⟩
    rw [hv]
    conv_lhs => rw [← List.takeWhile_append_dropWhile (p := isWsChar) (l := r1)]
    rw [hr1]
    simp [List.append_assoc]

theorem mrGrab_some_close (old_name : List Char) :
    ∀ (s acc x rest : List Char), mrGrab old_name acc s = some (x, rest) →
      ∃ u v, s = u ++ v ∧ mrClose old_name v = some rest := by
  intro s
  induction s with
  | nil => intro acc x rest h; exact absurd h (by simp [mrGrab])
  | cons c cs ih =>
    intro acc x rest h
    by_cases hcn : c = '\n'
    · rw [mrGrab, if_pos hcn] at h
      exact absurd h (by simp)
    · rw [mrGrab, if_neg hcn] at h
      cases hcl : mrClose old_name cs with
      | some r2 =>
        rw [hcl] at h
        simp at h
        exact ⟨[c], cs, rfl, by rw [hcl, h.2]⟩
      | none =>
        rw [hcl] at h
        obtain ⟨u, v, hcs, hcv⟩ := ih _ _ _ h
        exact ⟨c :: u, v, by rw [hcs, List.cons_append], hcv⟩

theorem mrMatch_none_of_not_contains {old_name s : List Char}
    (h : containsChars (mrTail old_name) s = false) : mrMatch old_name s = none := by
  cases hm : mrMatch old_name s with
  | none => rfl
  | some xr =>
    exfalso
    obtain ⟨x1, x2⟩ := xr
    unfold mrMatch at hm
    cases h1 : stripPre (("(OldName=\"").data) s with
    | none => rw [h1] at hm; exact absurd hm (by simp)
    | some r1 =>
      rw [h1] at hm
      obtain ⟨u, v, hr1v, hcv⟩ := mrGrab_some_close old_name r1 [] x1 x2 (by exact hm)
      obtain ⟨u2, w, hv2⟩ := mrClose_some_infix hcv
      have hshape : s = ((("(OldName=\"").data) ++ (u ++ u2)) ++ (mrTail old_name ++ w) := by
        rw [stripPre_eq_some.mp h1, hr1v, hv2]
        simp [List.append_assoc]
      rw [containsChars_of_shape (mrTail old_name) ((("(OldName=\"").data) ++ (u ++ u2)) w s
        hshape] at h
      exact Bool.noConfusion h

theorem mrGo_id (old_name new_name : List Char) :
    ∀ (f : Nat) (s : List Char),
      (∀ u v, s = u ++ v → mrMatch old_name v = none) → mrGo old_name new_name f s = s := by
  intro f
  induction f with
  | zero => intro s _; rfl
  | succ f ih =>
    intro s h
    cases s with
    | nil => rfl
    | cons c cs =>
      rw [mrGo_cons_none c cs f (h [] (c :: cs) rfl)]
      rw [ih cs (fun u v hv => h (c :: u) v (by rw [hv, List.cons_append]))]

theorem mrReplaceAll_not_contains (old_name new_name : String) (s : List Char)
    (h : containsChars (mrTail old_name.data) s = false) :
    mrReplaceAll old_name new_name s = s := by
  unfold mrReplaceAll
  apply mrGo_id
  intro u v hv
  apply mrMatch_none_of_not_contains
  cases hcv : containsChars (mrTail old_name.data) v with
  | false => rfl
  | true =>
    exfalso
    have h2 := containsChars_append_right (mrTail old_name.data) u v hcv
    rw [← hv] at h2
    rw [h2] at h
    exact Bool.noConfusion h

/-- C4: the module-rename redirect update rewrites an existing redirect entry
`(OldName="X", NewName="/Script/Old")` into
`(OldName="X", NewName="/Script/New")`, preserving the captured old-name
value `X` verbatim; content containing no occurrence of the literal tail
`NewName="/Script/Old")` — i.e. no entry whose target is the old module
path — is left completely unchanged; and the generated change carries
exactly the pattern and replacement built by `update_existing_redirects`. -/
theorem module_redirect_update (old_name new_name : String) (x : List Char)
    (hx : x ≠ []) (hc : ∀ c ∈ x, c ≠ '"' ∧ c ≠ '\n') :
    mrReplaceAll old_name new_name
        (mrEntry x ((("/Script/").data) ++ old_name.data)) =
      mrEntry x ((("/Script/").data) ++ new_name.data) ∧
    (∀ s, containsChars (mrTail old_name.data) s = false →
      mrReplaceAll old_name new_name s = s) ∧
    RenameModule.update_existing_redirects [] old_name new_name =
      Change.ReplaceInFile ["Config", "DefaultEngine.ini"]
        ("\\(OldName=\"(?P<old>.+?)\",\\s*NewName=\"/Script/" ++ old_name ++ "\"\\)")
        ("(OldName=\"$old\", NewName=\"/Script/" ++ new_name ++ "\")") :=
  ⟨mrReplaceAll_entry old_name new_name x hx hc,
   fun s hs => mrReplaceAll_not_contains old_name new_name s hs,
   rfl⟩

theorem module_redirect_update_witness :
    mrReplaceAll ("Start") ("Finish")
        (mrEntry (("/Game/X").data) ((("/Script/").data) ++ ("Start").data)) =
      mrEntry (("/Game/X").data) ((("/Script/").data) ++ ("Finish").data) ∧
    mrReplaceAll ("Start") ("Finish") (("[/Script/Engine.Engine]").data) =
      ("[/Script/Engine.Engine]").data :=
  ⟨(module_redirect_update ("Start") ("Finish") (("/Game/X").data)
      (by decide) (by decide)).1,
   (module_redirect_update ("Start") ("Finish") (("/Game/X").data)
      (by decide) (by decide)).2.1 (("[/Script/Engine.Engine]").data) (by decide)⟩

theorem pgGo_nil (new_name : List Char) : ∀ f, pgGo new_name f [] = []
  | 0 => rfl
  | _ + 1 => rfl

theorem pgGo_cons_match {new_name x rest : List Char} (c : Char) (cs : List Char)
    (f : Nat) (h : pgMatch (c :: cs) = some (x, rest)) :
    pgGo new_name (f + 1) (c :: cs) = pgRender x new_name ++ pgGo new_name f rest := by
  simp only [pgGo, h]

theorem pgGrab2_cons_close {cs tail0 : List Char} (c : Char) (hcn : c ≠ '\n')
    (hcs : stripPre (("\")").data) cs = some tail0) :
    pgGrab2 (c :: cs) = some tail0 := by
  simp only [pgGrab2, if_neg hcn, hcs]

theorem pgGrab2_cons_step {cs : List Char} (c : Char) (hcn : c ≠ '\n')
    (hcs : stripPre (("\")").data) cs = none) :
    pgGrab2 (c :: cs) = pgGrab2 cs := by
  simp only [pgGrab2, if_neg hcn, hcs]

theorem pgGrab2_closes :
    ∀ (t tail0 : List Char), t ≠ [] → (∀ c ∈ t, c ≠ '"' ∧ c ≠ '\n') →
      pgGrab2 (t ++ ('"' :: ')' :: tail0)) = some tail0 := by
  intro t
  induction t with
  | nil => intro tail0 hne _; exact absurd rfl hne
  | cons a t ih =>
    intro tail0 _ hc
    have ha := hc a (by simp)
    cases t with
    | nil =>
      show pgGrab2 (a :: ('"' :: ')' :: tail0)) = some tail0
      exact pgGrab2_cons_close a ha.2 rfl
    | cons b t' =>
      have hb := hc b (by simp)
      rw [show (a :: b :: t') ++ ('"' :: ')' :: tail0) =
        a :: ((b :: t') ++ ('"' :: ')' :: tail0)) from rfl]
      rw [pgGrab2_cons_step a ha.2 (show stripPre (("\")").data)
          ((b :: t') ++ ('"' :: ')' :: tail0)) = none from by
        show stripPre (("\")").data) (b :: (t' ++ ('"' :: ')' :: tail0))) = none
        simp [stripPre, show ('"' : Char) ≠ b from fun hh => hb.1 hh.symm])]
      exact ih tail0 (by simp) (fun c hcc => hc c (by simp [hcc]))

theorem pgClose1_closes (t tail0 : List Char) (ht : t ≠ [])
    (hct : ∀ c ∈ t, c ≠ '"' ∧ c ≠ '\n') :
    pgClose1 ('"' :: ',' :: ' ' ::
        ((("NewGameName=\"").data) ++ (t ++ ('"' :: ')' :: tail0)))) = some tail0 := by
  show (match stripPre (("NewGameName=\"").data)
      ((("NewGameName=\"").data) ++ (t ++ ('"' :: ')' :: tail0))) with
    | none => none
    | some r2 => pgGrab2 r2) = some tail0
  rw [stripPre_self]
  show pgGrab2 (t ++ ('"' :: ')' :: tail0)) = some tail0
  exact pgGrab2_closes t tail0 ht hct

theorem pgClose1_head_ne {b : Char} (rest : List Char) (h : b ≠ '"') :
    pgClose1 (b :: rest) = none := by
  unfold pgClose1
  rw [show stripPre (("\",").data) (b :: rest) = none from by
    simp [stripPre, show ('"' : Char) ≠ b from fun hh => h hh.symm]]

theorem pgGrab1_cons_none {acc : List Char} (c : Char) (cs : List Char)
    (hcn : c ≠ '\n') (h : pgClose1 cs = none) :
    pgGrab1 acc (c :: cs) = pgGrab1 (acc ++ [c]) cs := by
  simp only [pgGrab1, if_neg hcn, h]

theorem pgGrab1_cons_some {acc rest : List Char} (c : Char) (cs : List Char)
    (hcn : c ≠ '\n') (h : pgClose1 cs = some rest) :
    pgGrab1 acc (c :: cs) = some (acc ++ [c], rest) := by
  simp only [pgGrab1, if_neg hcn, h]

theorem pgGrab1_closes (t tail0 : List Char) (ht : t ≠ [])
    (hct : ∀ c ∈ t, c ≠ '"' ∧ c ≠ '\n') :
    ∀ (x acc : List Char), x ≠ [] → (∀ c ∈ x, c ≠ '"' ∧ c ≠ '\n') →
      pgGrab1 acc (x ++ ('"' :: ',' :: ' ' ::
          ((("NewGameName=\"").data) ++ (t ++ ('"' :: ')' :: tail0))))) =
        some (acc ++ x, tail0) := by
  intro x
  induction x with
  | nil => intro acc hne _; exact absurd rfl hne
  | cons a x ih =>
    intro acc _ hc
    have ha := hc a (by simp)
    cases x with
    | nil =>
      show pgGrab1 acc (a :: ('"' :: ',' :: ' ' ::
        ((("NewGameName=\"").data) ++ (t ++ ('"' :: ')' :: tail0))))) =
        some (acc ++ [a], tail0)
      exact pgGrab1_cons_some a _ ha.2 (pgClose1_closes t tail0 ht hct)
    | cons b x' =>
      have hb := hc b (by simp)
      rw [show (a :: b :: x') ++ ('"' :: ',' :: ' ' ::
          ((("NewGameName=\"").data) ++ (t ++ ('"' :: ')' :: tail0)))) =
        a :: ((b :: x') ++ ('"' :: ',' :: ' ' ::
          ((("NewGameName=\"").data) ++ (t ++ ('"' :: ')' :: tail0))))) from rfl]
      rw [pgGrab1_cons_none a ((b :: x') ++ ('"' :: ',' :: ' ' ::
          ((("NewGameName=\"").data) ++ (t ++ ('"' :: ')' :: tail0)))))
        ha.2 (pgClose1_head_ne (x' ++ ('"' :: ',' :: ' ' ::
          ((("NewGameName=\"").data) ++ (t ++ ('"' :: ')' :: tail0))))) hb.1)]
      rw [ih (acc ++ [a]) (by simp) (fun c hcc => hc c (by simp [hcc]))]
      simp

theorem pgMatch_canon (x t : List Char) (hx : x ≠ [])
    (hcx : ∀ c ∈ x, c ≠ '"' ∧ c ≠ '\n') (ht : t ≠ [])
    (hct : ∀ c ∈ t, c ≠ '"' ∧ c ≠ '\n') :
    pgMatch ('(' :: ((("OldGameName=\"").data) ++ (x ++ ('"' :: ',' :: ' ' ::
        ((("NewGameName=\"").data) ++ (t ++ ('"' :: ')' :: []))))))) = some (x, []) := by
  unfold pgMatch
  rw [show stripPre (("(OldGameName=\"").data)
      ('(' :: ((("OldGameName=\"").data) ++ (x ++ ('"' :: ',' :: ' ' ::
        ((("NewGameName=\"").data) ++ (t ++ ('"' :: ')' :: []))))))) =
      some (x ++ ('"' :: ',' :: ' ' ::
        ((("NewGameName=\"").data) ++ (t ++ ('"' :: ')' :: []))))) from
    stripPre_self (("(OldGameName=\"").data) (x ++ ('"' :: ',' :: ' ' ::
      ((("NewGameName=\"").data) ++ (t ++ ('"' :: ')' :: [])))))]
  show pgGrab1 [] (x ++ ('"' :: ',' :: ' ' ::
    ((("NewGameName=\"").data) ++ (t ++ ('"' :: ')' :: []))))) = some (x, [])
  rw [pgGrab1_closes t [] ht hct x [] hx hcx]
  rfl

theorem pgEntry_decomp (x t : List Char) :
    pgEntry x t = '(' :: ((("OldGameName=\"").data) ++ (x ++ ('"' :: ',' :: ' ' ::
      ((("NewGameName=\"").data) ++ (t ++ ('"' :: ')' :: [])))))) := by
  unfold pgEntry
  simp only [List.append_assoc]
  rfl

theorem pgRender_eq_entry (x new_name : List Char) :
    pgRender x new_name = pgEntry x ((("/Script/").data) ++ new_name) := by
  unfold pgRender pgEntry
  simp only [List.append_assoc]
  rfl

theorem pgReplaceAll_entry (new_name : String) (x t : List Char) (hx : x ≠ [])
    (hcx : ∀ c ∈ x, c ≠ '"' ∧ c ≠ '\n') (ht : t ≠ [])
    (hct : ∀ c ∈ t, c ≠ '"' ∧ c ≠ '\n') :
    pgReplaceAll new_name (pgEntry x t) =
      pgEntry x ((("/Script/").data) ++ new_name.data) := by
  unfold pgReplaceAll
  conv_lhs => rw [pgEntry_decomp]
  rw [List.length_cons]
  rw [pgGo_cons_match _ _ _ (pgMatch_canon x t hx hcx ht hct)]
  rw [pgGo_nil, List.append_nil]
  exact pgRender_eq_entry x new_name.data

/-- C9: the project-rename redirect update rewrites every existing game-name
redirect entry — an entry `(OldGameName="X", NewGameName="T")` is retargeted
to `(OldGameName="X", NewGameName="/Script/New")` for an arbitrary current
target `T`, not only when `T` equals the old project path (contrast the
module-level `update_existing_redirects`, whose pattern pins the target to
`/Script/Old`); and the generated change carries exactly the pattern and
replacement built by `update_redirects_in_engine_config`. -/
theorem project_redirect_update_all (new_name : String) (x t : List Char)
    (hx : x ≠ []) (hcx : ∀ c ∈ x, c ≠ '"' ∧ c ≠ '\n')
    (ht : t ≠ []) (hct : ∀ c ∈ t, c ≠ '"' ∧ c ≠ '\n') :
    pgReplaceAll new_name (pgEntry x t) =
      pgEntry x ((("/Script/").data) ++ new_name.data) ∧
    RenameProject.update_redirects_in_engine_config [] new_name =
      Change.ReplaceInFile ["Config", "DefaultEngine.ini"]
        ("\\(OldGameName=\"(?P<old>.+?)\",\\s*NewGameName=\".+?\"\\)")
        ("(OldGameName=\"$old\", NewGameName=\"/Script/" ++ new_name ++ "\")") :=
  ⟨pgReplaceAll_entry new_name x t hx hcx ht hct, rfl⟩

theorem project_redirect_update_all_witness :
    pgReplaceAll ("Finish")
        (pgEntry (("/Game/X").data) (("/Script/Whatever").data)) =
      pgEntry (("/Game/X").data) ((("/Script/").data) ++ ("Finish").data) ∧
    RenameProject.update_redirects_in_engine_config [] ("Finish") =
      Change.ReplaceInFile ["Config", "DefaultEngine.ini"]
        ("\\(OldGameName=\"(?P<old>.+?)\",\\s*NewGameName=\".+?\"\\)")
        ("(OldGameName=\"$old\", NewGameName=\"/Script/" ++ ("Finish") ++ "\")") :=
  project_redirect_update_all ("Finish") (("/Game/X").data)
    (("/Script/Whatever").data) (by decide) (by decide) (by decide) (by decide)
